import Mathlib

/-!
Verification of the binary serialization core of CeeblueTV/web-utils:
`BinaryReader` (src/BinaryReader.ts), `BinaryWriter` (src/BinaryWriter.ts) and
`BitReader` (src/BitReader.ts), shallowly embedded over `List Nat` byte buffers.

Modelling conventions, chosen to mirror the JavaScript source:
* A `Uint8Array` is a `List Nat` whose entries are below 256; its `byteLength`
  is the list length.
* JS numbers holding byte/cursor quantities are `Nat` where the source keeps
  them non-negative, and `Int` where the source can drive them negative
  (`BinaryReader._position` after `reset` with a negative argument).
* JS 32-bit operations (`<<`, `>>`, `>>>`, `|`, `&`) are modelled on `Nat`
  bit patterns with explicit `% 2 ^ 32` where wrap-around is reachable, and
  the signed (int32) reading of a pattern is recovered with `jsInt32`.
* Methods that mutate `this` become functions from state to (result × state);
  methods that can throw return the post-throw state together with an
  `Option String` error (JS exceptions propagate, but the mutated object
  survives, which is observable and is what claim C3 is about).
-/

/-! ## BinaryReader (src/BinaryReader.ts) -/

/-- State of a `BinaryReader`: `_data`, `_size`, `_position`.  The `_view`
field of the source is a window on the same bytes and needs no separate
state.  `_position` is an `Int` because `reset` stores its argument without
a lower clamp, so the source can drive it negative. -/
structure BinaryReader where
  data : List Nat
  size : Int
  position : Int
deriving Repr, DecidableEq

/-- Constructor `new BinaryReader(data)`: wraps the bytes, `_size` is the
byte length, `_position` starts at 0. -/
def BinaryReader.mk0 (data : List Nat) : BinaryReader :=
  { data := data, size := (data.length : Int), position := 0 }

/-- Well-formedness: every state reachable from the constructor without a
negative `reset` satisfies this (the data-model invariant of spec section 3:
`0 <= position <= size`, `size` within the buffer, bytes below 256). -/
def BinaryReader.Wf (r : BinaryReader) : Prop :=
  0 ≤ r.position ∧ r.position ≤ r.size ∧ r.size ≤ (r.data.length : Int) ∧
    ∀ b ∈ r.data, b < 256

instance (r : BinaryReader) : Decidable r.Wf := by
  unfold BinaryReader.Wf; infer_instance

/-- `available()`: `this._size - this._position`. -/
def BinaryReader.available (r : BinaryReader) : Int :=
  r.size - r.position

/-- `reset(position = 0)`: `this._position = position > this._size ?
this._size : position`.  Only the upper side is clamped. -/
def BinaryReader.reset (r : BinaryReader) (position : Int) : BinaryReader :=
  { r with position := if position > r.size then r.size else position }

/-- `shrink(available)`: truncates the visible size; returns the bytes now
visible after the position. -/
def BinaryReader.shrink (r : BinaryReader) (available : Int) :
    Int × BinaryReader :=
  let rest := r.size - r.position
  if available > rest then (rest, r)
  else (available, { r with size := r.position + available })

/-- `next(count = 1)`: advance by at most the remaining bytes and return the
bytes actually advanced. -/
def BinaryReader.next (r : BinaryReader) (count : Int) : Int × BinaryReader :=
  let rest := r.size - r.position
  let c := if count > rest then rest else count
  (c, { r with position := r.position + c })

/-- `DataView.getUint8`.  The JS call throws a `RangeError` outside
`[0, byteLength)`; that path is unreachable from every state used in the
theorems below (reads guard with `next` first and the states are well
formed), so the model stays total with an arbitrary default there. -/
def getUint8 (d : List Nat) (i : Int) : Nat :=
  if 0 ≤ i ∧ i < (d.length : Int) then d.getD i.toNat 0 else 0

/-- `DataView.getUint16` big-endian. -/
def getUint16 (d : List Nat) (i : Int) : Nat :=
  256 * getUint8 d i + getUint8 d (i + 1)

/-- `DataView.getUint32` big-endian. -/
def getUint32 (d : List Nat) (i : Int) : Nat :=
  2 ^ 24 * getUint8 d i + 2 ^ 16 * getUint8 d (i + 1) +
    2 ^ 8 * getUint8 d (i + 2) + getUint8 d (i + 3)

/-- `read8()`: `this.next(1) === 1 ? this._view.getUint8(this._position - 1) : 0`. -/
def BinaryReader.read8 (r : BinaryReader) : Nat × BinaryReader :=
  let (c, r') := r.next 1
  (if c = 1 then getUint8 r'.data (r'.position - 1) else 0, r')

/-- `read16()`: big-endian, default 0 on shortfall. -/
def BinaryReader.read16 (r : BinaryReader) : Nat × BinaryReader :=
  let (c, r') := r.next 2
  (if c = 2 then getUint16 r'.data (r'.position - 2) else 0, r')

/-- `read24()`: `(getUint16(position - 3) << 8) | (getUint8(position - 1) & 0xff)`. -/
def BinaryReader.read24 (r : BinaryReader) : Nat × BinaryReader :=
  let (c, r') := r.next 3
  (if c = 3 then
      (getUint16 r'.data (r'.position - 3)) <<< 8 |||
        (getUint8 r'.data (r'.position - 1) &&& 0xff)
    else 0, r')

/-- `read32()`: big-endian, default 0 on shortfall. -/
def BinaryReader.read32 (r : BinaryReader) : Nat × BinaryReader :=
  let (c, r') := r.next 4
  (if c = 4 then getUint32 r'.data (r'.position - 4) else 0, r')

/-- `readFloat()`: `this.next(4) === 4 ? this._view.getFloat32(...) : 0`.
The IEEE-754 binary32 interpretation of the four consumed bytes is not
modelled; the raw big-endian bit pattern stands in for it (pattern 0 is the
float +0).  Every claim about `readFloat` concerns only the shortfall
branch, which returns 0 before any interpretation takes place. -/
def BinaryReader.readFloat (r : BinaryReader) : Nat × BinaryReader :=
  let (c, r') := r.next 4
  (if c = 4 then getUint32 r'.data (r'.position - 4) else 0, r')

/-- `readDouble()`: `this.next(8) === 8 ? this._view.getFloat64(...) : 0`.
Same bit-pattern abstraction as `readFloat`. -/
def BinaryReader.readDouble (r : BinaryReader) : Nat × BinaryReader :=
  let (c, r') := r.next 8
  (if c = 8 then
      2 ^ 32 * getUint32 r'.data (r'.position - 8) +
        getUint32 r'.data (r'.position - 4)
    else 0, r')

/-- Loop body of `read7Bit`: `do { byte = read8(); if (!--bytes) return
((result << 8) | byte) >>> 0; result = (result << 7) | (byte & 0x7f); }
while (byte & 0x80);`.  The source reads the byte and then decrements the
counter; the model matches on the counter first and performs the read in
the reachable branches, which is observationally identical for a pure
state-passing model (the counter never starts at 0, the guard throws
first).  On the last permitted byte the JS `(result << 8) | byte` runs on
int32 and `>>> 0` reinterprets unsigned: since `byte < 256` and the low 8
bits of the shifted accumulator are clear, the combination equals
`(result * 256 + byte) % 2 ^ 32`. -/
def BinaryReader.read7BitLoop (r : BinaryReader) (bytes : Nat) (result : Nat) :
    Nat × BinaryReader :=
  match bytes with
  | 0 => (result, r)
  | 1 =>
    let (byte, r') := r.read8
    ((result * 256 + byte) % 2 ^ 32, r')
  | b + 2 =>
    let (byte, r') := r.read8
    let result' := (result <<< 7) ||| (byte &&& 0x7f)
    if byte &&& 0x80 ≠ 0 then r'.read7BitLoop (b + 1) result'
    else (result', r')

/-- `read7Bit(bytes = 5)`: guards first (`bytes > 5` and non-positive
`bytes` throw), then the accumulation loop. -/
def BinaryReader.read7Bit (r : BinaryReader) (bytes : Nat := 5) :
    Except String (Nat × BinaryReader) :=
  if bytes > 5 then
    .error "BinaryReader in JS can't decode more than 32 usefull bits"
  else if bytes = 0 then
    .error "Have to indicate a positive number of bytes to decode"
  else .ok (r.read7BitLoop bytes 0)

/-- `read(size = this.available())`: zero-filled array of exactly `size`
bytes (position untouched) when not enough data is available, otherwise the
`subarray` of the next `size` bytes, advancing the position. -/
def BinaryReader.read (r : BinaryReader) (size : Nat) :
    List Nat × BinaryReader :=
  if r.available < (size : Int) then (List.replicate size 0, r)
  else ((r.data.drop r.position.toNat).take size,
    { r with position := r.position + size })

/-- `readString()`: `String.fromCharCode(...this.read(this.read7Bit()))` —
a 7-bit-encoded length followed by that many bytes (char codes).  The
default `read7Bit()` call never takes a throwing path. -/
def BinaryReader.readString (r : BinaryReader) :
    Except String (List Nat × BinaryReader) :=
  (r.read7Bit 5).map fun p => p.2.read p.1

/-! ## Claim C9: `reset` clamping -/

/-- Claim C9 counterexample: `reset` does not clamp below 0.  On a 4-byte
reader, `reset(-1)` leaves `position() = -1`, not
`max(0, min(-1, 4)) = 0` as the claim demands. -/
theorem c9_counterexample :
    ((BinaryReader.mk0 [1, 2, 3, 4]).reset (-1)).position = -1 ∧
      ¬ ((BinaryReader.mk0 [1, 2, 3, 4]).reset (-1)).position =
        max 0 (min (-1) ((BinaryReader.mk0 [1, 2, 3, 4]).size)) := by
  decide

/-- Claim C9 (amended): for every reader state and every numeric argument
`pos`, `reset(pos)` never throws (it is a total state update) and afterwards
`position()` equals `min(pos, size())`; only the upper bound is clamped, a
negative argument is stored unchanged. -/
theorem c9_reset_clamps_above (r : BinaryReader) (pos : Int) :
    ((r.reset pos).position = min pos r.size) ∧ (r.reset pos).size = r.size ∧
      (r.reset pos).data = r.data := by
  refine ⟨?_, rfl, rfl⟩
  simp only [BinaryReader.reset]
  split <;> omega

/-! ## Claim C5: shortfall defaults -/

/-- Claim C5: every fixed-width read invoked with `available()` strictly
below its width returns the number 0 (without any buffer access: the
`next(w) === w` guard fails first, so no throwing `DataView` access is
reachable), and `read(n)` with fewer than `n` bytes available returns a
zero-filled array of exactly `n` bytes. -/
theorem c5_shortfall_defaults (r : BinaryReader) :
    (r.available < 1 → (r.read8).1 = 0) ∧
    (r.available < 2 → (r.read16).1 = 0) ∧
    (r.available < 3 → (r.read24).1 = 0) ∧
    (r.available < 4 → (r.read32).1 = 0) ∧
    (r.available < 4 → (r.readFloat).1 = 0) ∧
    (r.available < 8 → (r.readDouble).1 = 0) ∧
    ∀ n : Nat, r.available < (n : Int) →
      (r.read n).1 = List.replicate n 0 ∧ (r.read n).1.length = n := by
  refine ⟨?_, ?_, ?_, ?_, ?_, ?_, ?_⟩
  · intro h
    simp only [BinaryReader.read8, BinaryReader.next, BinaryReader.available] at *
    split <;> split <;> simp_all <;> omega
  · intro h
    simp only [BinaryReader.read16, BinaryReader.next, BinaryReader.available] at *
    split <;> split <;> simp_all <;> omega
  · intro h
    simp only [BinaryReader.read24, BinaryReader.next, BinaryReader.available] at *
    split <;> split <;> simp_all <;> omega
  · intro h
    simp only [BinaryReader.read32, BinaryReader.next, BinaryReader.available] at *
    split <;> split <;> simp_all <;> omega
  · intro h
    simp only [BinaryReader.readFloat, BinaryReader.next, BinaryReader.available] at *
    split <;> split <;> simp_all <;> omega
  · intro h
    simp only [BinaryReader.readDouble, BinaryReader.next, BinaryReader.available] at *
    split <;> split <;> simp_all <;> omega
  · intro n h
    simp only [BinaryReader.read, if_pos h]
    simp

/-- Witness for C5 at a concrete state: an exhausted 1-byte reader. -/
theorem c5_witness :
    ((BinaryReader.mk0 [7]).reset 1).available < 1 ∧
      (((BinaryReader.mk0 [7]).reset 1).read8).1 = 0 ∧
      (((BinaryReader.mk0 [7]).reset 1).read 3).1 = [0, 0, 0] := by
  have h := c5_shortfall_defaults ((BinaryReader.mk0 [7]).reset 1)
  refine ⟨by decide, h.1 (by decide), ?_⟩
  have h7 := (h.2.2.2.2.2.2 3 (by decide)).1
  simpa using h7

/-! ## Claim C10: cursor effect of shortfall reads -/

/-- Claim C10: `read(n)` on shortfall returns its zero-filled default with
the whole state (in particular `position()`) unchanged, while every
fixed-width read on shortfall consumes all remaining bytes, leaving
`position()` equal to `size()`. -/
theorem c10_shortfall_cursor (r : BinaryReader) :
    (∀ n : Nat, r.available < (n : Int) → (r.read n).2 = r) ∧
    (r.available < 1 → (r.read8).2.position = r.size) ∧
    (r.available < 2 → (r.read16).2.position = r.size) ∧
    (r.available < 3 → (r.read24).2.position = r.size) ∧
    (r.available < 4 → (r.read32).2.position = r.size) ∧
    (r.available < 4 → (r.readFloat).2.position = r.size) ∧
    (r.available < 8 → (r.readDouble).2.position = r.size) := by
  simp only [BinaryReader.available] at *
  refine ⟨fun n h => ?_, ?_, ?_, ?_, ?_, ?_, ?_⟩
  · simp only [BinaryReader.read, BinaryReader.available, if_pos h]
  all_goals
    intro h
    simp only [BinaryReader.read8, BinaryReader.read16, BinaryReader.read24,
      BinaryReader.read32, BinaryReader.readFloat, BinaryReader.readDouble,
      BinaryReader.next]
    split <;> simp_all <;> omega

/-- Witness for C10 at a concrete state: a reader with one byte left. -/
theorem c10_witness :
    ((((BinaryReader.mk0 [9, 9]).reset 1).read 5).2 =
        (BinaryReader.mk0 [9, 9]).reset 1) ∧
      ((((BinaryReader.mk0 [9, 9]).reset 1).read16).2.position =
        ((BinaryReader.mk0 [9, 9]).reset 1).size) := by
  have h := c10_shortfall_cursor ((BinaryReader.mk0 [9, 9]).reset 1)
  exact ⟨h.1 5 (by decide), h.2.2.1 (by decide)⟩

/-! ## BinaryWriter (src/BinaryWriter.ts) -/

/-- State of a `BinaryWriter`: `_data` (the whole allocated buffer, so
`capacity = data.length`), `_size` (logical written length) and `_isConst`
(set by the fixed-storage constructor).  The lazily cached `_view` needs no
state of its own. -/
structure BinaryWriter where
  data : List Nat
  size : Nat
  isConst : Bool
deriving Repr, DecidableEq

deriving instance DecidableEq for Except

/-- Result of a writer operation: the writer state after the call together
with the thrown error, if any.  A JS exception propagates but the mutated
object survives, so the post-throw state stays observable. -/
abbrev WRes : Type := BinaryWriter × Option String

/-- Sequencing of writer operations: a thrown error stops the chain. -/
def wbind (r : WRes) (f : BinaryWriter → WRes) : WRes :=
  match r.2 with
  | some _ => r
  | none => f r.1

/-- Constructor `new BinaryWriter(size)` (allocate-new mode, default 64):
a zero buffer of the given capacity, `_size = 0`, growable. -/
def BinaryWriter.mk0 (size : Nat := 64) : BinaryWriter :=
  { data := List.replicate size 0, size := 0, isConst := false }

/-- Constructor over a caller-fixed region (`ArrayBuffer` + offset/length
mode): marks the writer const-capacity, `_size = 0`. -/
def BinaryWriter.mkConst (data : List Nat) : BinaryWriter :=
  { data := data, size := 0, isConst := true }

/-- Constructor wrapping an existing byte view (append mode): `_size`
starts at the wrapped length, still growable. -/
def BinaryWriter.mkWrap (data : List Nat) : BinaryWriter :=
  { data := data, size := data.length, isConst := false }

/-- Getter `capacity`: `this._data.byteLength`. -/
def BinaryWriter.capacity (w : BinaryWriter) : Nat :=
  w.data.length

/-- Method `data()`: the logically written prefix `[0, size)`. -/
def BinaryWriter.dataOut (w : BinaryWriter) : List Nat :=
  w.data.take w.size

/-- Signed reading of a 32-bit pattern (`p < 2 ^ 32` at every use): the JS
int32 value whose unsigned bit pattern is `p`. -/
def jsInt32 (p : Nat) : Int :=
  if p < 2 ^ 31 then (p : Int) else (p : Int) - 2 ^ 32

/-- JS arithmetic shift right (`>>`) by `k` on the uint32 pattern `p`
(`p < 2 ^ 32` at every use): a negative int32 sign-extends, which on the
pattern side ORs in the top `k` bits. -/
def jsShrS32 (p k : Nat) : Nat :=
  if p < 2 ^ 31 then p >>> k else (p >>> k) ||| (2 ^ 32 - 2 ^ (32 - k))

/-- The bit smear of `reserve`: `size |= size >> 1; ... size |= size >> 16`
on int32, tracked on uint32 patterns. -/
def orFold32 (p : Nat) : Nat :=
  let s1 := p ||| jsShrS32 p 1
  let s2 := s1 ||| jsShrS32 s1 2
  let s3 := s2 ||| jsShrS32 s2 4
  let s4 := s3 ||| jsShrS32 s3 8
  s4 ||| jsShrS32 s4 16

/-- `reserve(size)`: no-op within capacity; error for const writers;
otherwise round `size` up with the `--size; size |= size >> k; ++size`
int32 smear, allocate and copy.  The initial `if (!this._data) throw` guard
is omitted: `_data` is set by every constructor and never cleared.  The JS
`--size` and `++size` run on exact numbers but the `|=`/`>>` steps coerce
to int32, so the smear input is taken `% 2 ^ 32` and read back signed; a
rounded capacity below the current byte length makes `data.set` throw a
`RangeError` (reachable only when the smear overflows, i.e. for requests
above `2 ^ 31`). -/
def BinaryWriter.reserve (w : BinaryWriter) (size : Nat) : WRes :=
  if size ≤ w.data.length then (w, none)
  else if w.isConst then
    (w, some ("writing exceeds maximum " ++ toString w.data.length ++
      " bytes limit"))
  else
    let newCap : Int := jsInt32 (orFold32 ((size - 1) % 2 ^ 32)) + 1
    if (w.data.length : Int) ≤ newCap then
      ({ w with
          data := w.data ++ List.replicate (newCap.toNat - w.data.length) 0 },
        none)
    else (w, some "RangeError: source array is too long")

/-- `next(count = 1)`: `this.reserve((this._size += count))` — the size is
bumped first, then capacity is checked, so a failing reserve leaves the
bumped size behind. -/
def BinaryWriter.next (w : BinaryWriter) (count : Nat) : WRes :=
  BinaryWriter.reserve { w with size := w.size + count } (w.size + count)

/-- `clear(size = 0)`: `this.reserve((this._size = size))` — same
assign-then-check shape as `next`. -/
def BinaryWriter.clear (w : BinaryWriter) (size : Nat) : WRes :=
  BinaryWriter.reserve { w with size := size } size

/-- `Uint8Array.prototype.set(src, ofs)` when `ofs + src.length` fits the
target (always the case after a successful `reserve`): overwrite in place. -/
def setAll (dst : List Nat) (ofs : Nat) (src : List Nat) : List Nat :=
  dst.take ofs ++ src ++ dst.drop (ofs + src.length)

/-- `write(data)` for the `ArrayLike<number>` branch: reserve, blit,
advance the size. -/
def BinaryWriter.write (w : BinaryWriter) (data : List Nat) : WRes :=
  wbind (w.reserve (w.size + data.length)) fun w' =>
    ({ w' with
        data := setAll w'.data w'.size data,
        size := w'.size + data.length }, none)

/-- `write(data)` for the string branch: each char code is stored as one
byte, codes above 255 as 32 (space); the source's per-char loop after a
successful `reserve` amounts to one blit of the mapped codes. -/
def BinaryWriter.writeChars (w : BinaryWriter) (s : List Nat) : WRes :=
  wbind (w.reserve (w.size + s.length)) fun w' =>
    ({ w' with
        data := setAll w'.data w'.size (s.map fun c => if c > 255 then 32 else c),
        size := w'.size + s.length }, none)

/-- `write8(value)`: clamp above `0xff`, reserve one byte, store. -/
def BinaryWriter.write8 (w : BinaryWriter) (value : Nat) : WRes :=
  let value := if value > 0xff then 0xff else value
  wbind (w.reserve (w.size + 1)) fun w' =>
    ({ w' with data := w'.data.set w'.size value, size := w'.size + 1 }, none)

/-- `write16(value)`: clamp above `0xffff`, then `setUint16` big-endian. -/
def BinaryWriter.write16 (w : BinaryWriter) (value : Nat) : WRes :=
  let value := if value > 0xffff then 0xffff else value
  wbind (w.reserve (w.size + 2)) fun w' =>
    ({ w' with
        data := (w'.data.set w'.size (value / 256)).set (w'.size + 1)
          (value % 256),
        size := w'.size + 2 }, none)

/-- `write24(value)`: clamp above `0xffffff`, then `setUint16(size, value
>> 8)` and `setUint8(size + 2, value & 0xff)`. -/
def BinaryWriter.write24 (w : BinaryWriter) (value : Nat) : WRes :=
  let value := if value > 0xffffff then 0xffffff else value
  wbind (w.reserve (w.size + 3)) fun w' =>
    ({ w' with
        data := ((w'.data.set w'.size ((value >>> 8) / 256)).set (w'.size + 1)
          ((value >>> 8) % 256)).set (w'.size + 2) (value &&& 0xff),
        size := w'.size + 3 }, none)

/-- `write32(value)`: clamp above `0xffffffff`, then `setUint32` big-endian. -/
def BinaryWriter.write32 (w : BinaryWriter) (value : Nat) : WRes :=
  let value := if value > 0xffffffff then 0xffffffff else value
  wbind (w.reserve (w.size + 4)) fun w' =>
    ({ w' with
        data := (((w'.data.set w'.size (value / 2 ^ 24)).set (w'.size + 1)
          (value / 2 ^ 16 % 256)).set (w'.size + 2) (value / 2 ^ 8 % 256)).set
          (w'.size + 3) (value % 256),
        size := w'.size + 4 }, none)

/-- `writeFloat(value)`: reserve four bytes and store the IEEE-754
binary32 image big-endian.  The rounding from a JS number to binary32 is
not modelled; the argument is taken as the 32-bit image itself (every claim
about `writeFloat` concerns only the capacity check, where nothing is
stored). -/
def BinaryWriter.writeFloat (w : BinaryWriter) (pattern : Nat) : WRes :=
  let p := pattern % 2 ^ 32
  wbind (w.reserve (w.size + 4)) fun w' =>
    ({ w' with
        data := (((w'.data.set w'.size (p / 2 ^ 24)).set (w'.size + 1)
          (p / 2 ^ 16 % 256)).set (w'.size + 2) (p / 2 ^ 8 % 256)).set
          (w'.size + 3) (p % 256),
        size := w'.size + 4 }, none)

/-- `writeDouble(value)`: reserve eight bytes and store the IEEE-754
binary64 image big-endian; same image-as-argument abstraction as
`writeFloat`. -/
def BinaryWriter.writeDouble (w : BinaryWriter) (pattern : Nat) : WRes :=
  let p := pattern % 2 ^ 64
  wbind (w.reserve (w.size + 8)) fun w' =>
    ({ w' with
        data := setAll w'.data w'.size
          [p / 2 ^ 56, p / 2 ^ 48 % 256, p / 2 ^ 40 % 256, p / 2 ^ 32 % 256,
            p / 2 ^ 24 % 256, p / 2 ^ 16 % 256, p / 2 ^ 8 % 256, p % 256],
        size := w'.size + 8 }, none)

/-- Body of the bit-count scan of `write7Bit`, structurally recursive on a
fuel argument so that it evaluates in the kernel.  One JS iteration
decreases `bits` by 7, so `fuel = bits` (the caller's choice) always
exceeds the iteration count and the fuel floor is unreachable. -/
def scanLoopGo (value : Nat) : Nat → Nat → Nat
  | 0, _ => 0
  | fuel + 1, bits =>
    let b' := bits - 7
    if b' = 0 then 0
    else if value >>> b' ≠ 0 then b'
    else scanLoopGo value fuel b'

/-- Bit-count scan of `write7Bit` (the branch with a clear front group):
`while ((bits -= 7) && !(value >>> bits)) continue;`.  At both call sites
`bits` is a positive multiple of 7, so the JS loop counts down and stops
exactly at 0.  (For the unreachable corner `bytes = 1 && value = 0` the JS
loop never terminates; the model returns 0 there.) -/
def scanLoop (value bits : Nat) : Nat :=
  scanLoopGo value bits bits

/-- Body of the emission loop of `write7Bit`, structurally recursive on a
fuel argument so it evaluates in the kernel.  One JS iteration decreases
`bits` by 7 and the loop only runs while `bits > 1`, so `fuel = bits` (the
caller's choice) always exceeds the iteration count; the fuel floor
coincides with the loop-exit write and is unreachable while `bits > 1`. -/
def BinaryWriter.emit7Go (value : Nat) : Nat → Nat → BinaryWriter → WRes
  | 0, bits, w => w.write8 (value &&& (if bits ≠ 0 then 0xff else 0x7f))
  | fuel + 1, bits, w =>
    if bits > 1 then
      wbind (w.write8 (0x80 ||| ((value >>> bits) &&& 0xff))) fun w' =>
        BinaryWriter.emit7Go value fuel (bits - 7) w'
    else w.write8 (value &&& (if bits ≠ 0 then 0xff else 0x7f))

/-- Emission loop of `write7Bit`: `while (bits > 1) { write8(0x80 |
((value >>> bits) & 0xff)); bits -= 7; } return this.write8(value & (bits ?
0xff : 0x7f));`. -/
def BinaryWriter.emit7 (w : BinaryWriter) (value bits : Nat) : WRes :=
  BinaryWriter.emit7Go value bits bits w

/-- `write7Bit(value, bytes = 5)`: guards, front-group computation
(`value > 0xffffffff` clamps to `0xffffffff` since `value >>> bits` only
sees 32 bits), then the emission loop. -/
def BinaryWriter.write7Bit (w : BinaryWriter) (value : Nat)
    (bytes : Nat := 5) : WRes :=
  if bytes > 5 then
    (w, some "BinaryWriter in JS can't encode more than 32 usefull bits")
  else if bytes = 0 then
    (w, some "Have to indicate a positive number of bytes to encode")
  else
    let bits := (bytes - 1) * 7
    let front := if value > 0xffffffff then 0x100 else value >>> bits
    if front ≠ 0 then
      w.emit7 (if front > 0xff then 0xffffffff else value) (bits + 1)
    else
      w.emit7 value (scanLoop value bits)

/-- `writeString(value)`: `this.write7Bit(value.length).write(value)` — a
7-bit-encoded length followed by the char codes (string branch of
`write`). -/
def BinaryWriter.writeString (w : BinaryWriter) (s : List Nat) : WRes :=
  wbind (w.write7Bit s.length 5) fun w' => w'.writeChars s

/-! ## Claim C3: const-capacity enforcement -/

/-- The error a const-capacity writer raises from `reserve`. -/
def errConst (w : BinaryWriter) : Option String :=
  some ("writing exceeds maximum " ++ toString w.data.length ++ " bytes limit")

/-- Claim C3 counterexample: on a const writer of capacity 2, `next(5)`
raises the capacity error but leaves `size() = 5`, not the pre-call value 0
— `this.reserve((this._size += count))` bumps the size before the check, so
the claim's "size() is unchanged ... including next and clear" fails. -/
theorem c3_counterexample :
    ((BinaryWriter.mkConst [0, 0]).next 5).2.isSome = true ∧
      ((BinaryWriter.mkConst [0, 0]).next 5).1.size = 5 ∧
      ¬ ((BinaryWriter.mkConst [0, 0]).next 5).1.size =
        (BinaryWriter.mkConst [0, 0]).size := by
  decide

/-- Claim C3 (amended): on a const-capacity writer every operation whose
required size exceeds the fixed capacity raises the capacity error and
never reallocates (the buffer, hence `capacity()`, is untouched).  The
data-writing operations (`write`, the string branch of `write`,
`write8/16/24/32`, `writeFloat`, `writeDouble`) also leave `size()`
unchanged — their whole state is returned as it was — while `next` and
`clear` assign the attempted size before the capacity check, so after their
error `size()` holds the attempted value. -/
theorem c3_const_capacity (w : BinaryWriter) (hc : w.isConst = true) :
    (∀ bs : List Nat, w.capacity < w.size + bs.length →
      w.write bs = (w, errConst w)) ∧
    (∀ s : List Nat, w.capacity < w.size + s.length →
      w.writeChars s = (w, errConst w)) ∧
    (∀ v, w.capacity < w.size + 1 → w.write8 v = (w, errConst w)) ∧
    (∀ v, w.capacity < w.size + 2 → w.write16 v = (w, errConst w)) ∧
    (∀ v, w.capacity < w.size + 3 → w.write24 v = (w, errConst w)) ∧
    (∀ v, w.capacity < w.size + 4 → w.write32 v = (w, errConst w)) ∧
    (∀ v, w.capacity < w.size + 4 → w.writeFloat v = (w, errConst w)) ∧
    (∀ v, w.capacity < w.size + 8 → w.writeDouble v = (w, errConst w)) ∧
    (∀ n, w.capacity < w.size + n →
      w.next n = ({ w with size := w.size + n }, errConst w)) ∧
    (∀ s, w.capacity < s →
      w.clear s = ({ w with size := s }, errConst w)) := by
  have hres : ∀ (w' : BinaryWriter) (m : Nat), w'.isConst = true →
      w'.capacity < m → w'.reserve m = (w', errConst w') := by
    intro w' m hc' hm
    simp only [BinaryWriter.reserve, BinaryWriter.capacity] at *
    rw [if_neg (by omega), if_pos hc']
    rfl
  refine ⟨?_, ?_, ?_, ?_, ?_, ?_, ?_, ?_, ?_, ?_⟩
  · intro bs h
    simp only [BinaryWriter.write, hres w _ hc h, wbind, errConst]
  · intro s h
    simp only [BinaryWriter.writeChars, hres w _ hc h, wbind, errConst]
  · intro v h
    simp only [BinaryWriter.write8, hres w _ hc h, wbind, errConst]
  · intro v h
    simp only [BinaryWriter.write16, hres w _ hc h, wbind, errConst]
  · intro v h
    simp only [BinaryWriter.write24, hres w _ hc h, wbind, errConst]
  · intro v h
    simp only [BinaryWriter.write32, hres w _ hc h, wbind, errConst]
  · intro v h
    simp only [BinaryWriter.writeFloat, hres w _ hc h, wbind, errConst]
  · intro v h
    simp only [BinaryWriter.writeDouble, hres w _ hc h, wbind, errConst]
  · intro n h
    have : ({ w with size := w.size + n } : BinaryWriter).isConst = true := hc
    simp only [BinaryWriter.next]
    rw [hres _ _ this (by simpa [BinaryWriter.capacity] using h)]
    rfl
  · intro s h
    have : ({ w with size := s } : BinaryWriter).isConst = true := hc
    simp only [BinaryWriter.clear]
    rw [hres _ _ this (by simpa [BinaryWriter.capacity] using h)]
    rfl

/-- Witness for C3 on a concrete const writer of capacity 0. -/
theorem c3_witness :
    ((BinaryWriter.mkConst []).write8 7 =
        (BinaryWriter.mkConst [], errConst (BinaryWriter.mkConst [])) ∧
      (BinaryWriter.mkConst []).write [1, 2, 3] =
        (BinaryWriter.mkConst [], errConst (BinaryWriter.mkConst []))) := by
  have h := c3_const_capacity (BinaryWriter.mkConst []) (by decide)
  refine ⟨?_, h.1 [1, 2, 3] (by decide)⟩
  have h8 := h.2.2.1 7 (by decide)
  simpa using h8

/-! ## Claim C4: power-of-two capacity growth -/

/-- OR of the first `m` right-shifts of `n` (shift amounts `0..m-1`): the
closure of the `reserve` smear steps. -/
def orShifts (n : Nat) : Nat → Nat
  | 0 => 0
  | m + 1 => orShifts n m ||| (n >>> m)

theorem testBit_orShifts (n m p : Nat) :
    (orShifts n m).testBit p = true ↔ ∃ i < m, n.testBit (p + i) = true := by
  induction m with
  | zero => simp [orShifts]
  | succ m ih =>
    simp only [orShifts, Nat.testBit_or, Bool.or_eq_true, ih,
      Nat.testBit_shiftRight]
    constructor
    · rintro (⟨i, hi, hb⟩ | hb)
      · exact ⟨i, by omega, hb⟩
      · exact ⟨m, by omega, by rwa [Nat.add_comm]⟩
    · rintro ⟨i, hi, hb⟩
      rcases Nat.lt_or_ge i m with h | h
      · exact Or.inl ⟨i, h, hb⟩
      · have : i = m := by omega
        subst this
        exact Or.inr (by rwa [Nat.add_comm])

theorem lor_lt_pow {x y n : Nat} (hx : x < 2 ^ n) (hy : y < 2 ^ n) :
    x ||| y < 2 ^ n := by
  refine Nat.lt_pow_two_of_testBit _ fun i hi => ?_
  have hx' : x < 2 ^ i := lt_of_lt_of_le hx (Nat.pow_le_pow_right (by omega) hi)
  have hy' : y < 2 ^ i := lt_of_lt_of_le hy (Nat.pow_le_pow_right (by omega) hi)
  simp [Nat.testBit_or, Nat.testBit_lt_two_pow hx', Nat.testBit_lt_two_pow hy']

theorem orShifts_lt_pow {n j : Nat} (hn : n < 2 ^ j) (m : Nat) :
    orShifts n m < 2 ^ j := by
  induction m with
  | zero => simpa [orShifts] using Nat.pos_pow_of_pos j (by omega)
  | succ m ih =>
    refine lor_lt_pow ih (lt_of_le_of_lt ?_ hn)
    simpa [Nat.shiftRight_eq_div_pow] using Nat.div_le_self n (2 ^ m)

theorem orShifts_double (n m : Nat) :
    orShifts n m ||| (orShifts n m >>> m) = orShifts n (2 * m) := by
  refine Nat.eq_of_testBit_eq fun p => ?_
  rw [Bool.eq_iff_iff]
  simp only [Nat.testBit_or, Bool.or_eq_true, Nat.testBit_shiftRight,
    testBit_orShifts]
  constructor
  · rintro (⟨i, hi, hb⟩ | ⟨i, hi, hb⟩)
    · exact ⟨i, by omega, hb⟩
    · refine ⟨m + i, by omega, ?_⟩
      rw [show p + (m + i) = m + p + i by omega]
      exact hb
  · rintro ⟨i, hi, hb⟩
    rcases Nat.lt_or_ge i m with h1 | h1
    · exact Or.inl ⟨i, h1, hb⟩
    · refine Or.inr ⟨i - m, by omega, ?_⟩
      rw [show m + p + (i - m) = p + i by omega]
      exact hb

theorem testBit_size_sub_one {p : Nat} (hp : p ≠ 0) :
    p.testBit (p.size - 1) = true := by
  have hpos : 0 < p.size := Nat.size_pos.mpr (Nat.pos_of_ne_zero hp)
  have h1 : 2 ^ (p.size - 1) ≤ p := Nat.lt_size.mp (by omega)
  have h2 : p < 2 ^ p.size := Nat.lt_size_self p
  have hdiv : p / 2 ^ (p.size - 1) = 1 := by
    have hlt : p / 2 ^ (p.size - 1) < 2 := by
      apply Nat.div_lt_of_lt_mul
      calc p < 2 ^ p.size := h2
        _ = 2 ^ (p.size - 1) * 2 := by
          rw [← Nat.pow_succ]
          congr 1
          omega
    have hge : 1 ≤ p / 2 ^ (p.size - 1) :=
      (Nat.one_le_div_iff (Nat.pos_pow_of_pos _ (by omega))).mpr h1
    omega
  rw [Nat.testBit_to_div_mod, hdiv]
  decide

theorem orShifts32_eq (p : Nat) (hp : p < 2 ^ 32) :
    orShifts p 32 = 2 ^ p.size - 1 := by
  refine Nat.eq_of_testBit_eq fun j => ?_
  rw [Nat.testBit_two_pow_sub_one]
  rcases Decidable.em (j < p.size) with h | h
  · simp only [h, decide_True]
    rw [testBit_orShifts]
    have hp0 : p ≠ 0 := by
      intro h0
      rw [h0] at h
      simp [Nat.size_zero] at h
    have hsz : p.size ≤ 32 := Nat.size_le.mpr hp
    exact ⟨p.size - 1 - j, by omega,
      by rw [show j + (p.size - 1 - j) = p.size - 1 by omega];
         exact testBit_size_sub_one hp0⟩
  · simp only [h, decide_False]
    rw [Bool.eq_false_iff]
    intro hcon
    obtain ⟨i, hi, hb⟩ := (testBit_orShifts p 32 j).mp hcon
    have := Nat.lt_size.mpr (Nat.testBit_implies_ge hb)
    omega

theorem orFold32_eq_orShifts (p : Nat) (hp : p < 2 ^ 31) :
    orFold32 p = orShifts p 32 := by
  have hshr : ∀ x k : Nat, x < 2 ^ 31 → jsShrS32 x k = x >>> k := by
    intro x k hx
    unfold jsShrS32
    rw [if_pos hx]
  have hor : ∀ m : Nat, orShifts p m < 2 ^ 31 := fun m => orShifts_lt_pow hp m
  have h1 : orShifts p 1 = p := by
    simp [orShifts]
  have e1 : p ||| jsShrS32 p 1 = orShifts p 2 := by
    rw [hshr p 1 hp]
    have hd := orShifts_double p 1
    rw [h1] at hd
    simpa using hd
  have e2 : orShifts p 2 ||| jsShrS32 (orShifts p 2) 2 = orShifts p 4 := by
    rw [hshr _ 2 (hor 2)]
    simpa using orShifts_double p 2
  have e4 : orShifts p 4 ||| jsShrS32 (orShifts p 4) 4 = orShifts p 8 := by
    rw [hshr _ 4 (hor 4)]
    simpa using orShifts_double p 4
  have e8 : orShifts p 8 ||| jsShrS32 (orShifts p 8) 8 = orShifts p 16 := by
    rw [hshr _ 8 (hor 8)]
    simpa using orShifts_double p 8
  have e16 : orShifts p 16 ||| jsShrS32 (orShifts p 16) 16 = orShifts p 32 := by
    rw [hshr _ 16 (hor 16)]
    simpa using orShifts_double p 16
  simp only [orFold32]
  rw [e1, e2, e4, e8, e16]

/-- The rounded capacity `reserve` computes for a request `m ≥ 1` within
the int32-safe range: `2 ^ size (m - 1)`. -/
theorem orFold32_value (m : Nat) (hm1 : 1 ≤ m) (hm : m ≤ 2 ^ 31) :
    orFold32 ((m - 1) % 2 ^ 32) = 2 ^ Nat.size (m - 1) - 1 := by
  have hlt : m - 1 < 2 ^ 31 := by omega
  rw [Nat.mod_eq_of_lt (by omega), orFold32_eq_orShifts _ hlt,
    orShifts32_eq _ (by omega)]

/-- `c` is the least power of two that is at least `m`. -/
def isLeastPow2Ge (c m : Nat) : Prop :=
  (∃ k, c = 2 ^ k) ∧ m ≤ c ∧ ∀ k, m ≤ 2 ^ k → c ≤ 2 ^ k

theorem isLeastPow2Ge_pow_size (m : Nat) (hm : 1 ≤ m) :
    isLeastPow2Ge (2 ^ Nat.size (m - 1)) m := by
  refine ⟨⟨Nat.size (m - 1), rfl⟩, ?_, ?_⟩
  · have := Nat.lt_size_self (m - 1)
    omega
  · intro k hk
    exact Nat.pow_le_pow_right (by omega) (Nat.size_le.mpr (by omega))

/-- Successful growth path of `reserve`: for a growable writer and a
request `m` above the capacity but within the int32-safe range, the buffer
is replaced by a zero-padded copy of capacity `2 ^ size (m - 1)` (the least
power of two at or above `m`). -/
theorem reserve_grows (w : BinaryWriter) (m : Nat) (hconst : w.isConst = false)
    (hcap : w.capacity < m) (hm : m ≤ 2 ^ 31) :
    w.reserve m =
      ({ w with
          data := w.data ++
            List.replicate (2 ^ Nat.size (m - 1) - w.data.length) 0 },
        none) := by
  have hm1 : 1 ≤ m := by
    have := w.data.length.zero_le
    simp [BinaryWriter.capacity] at hcap
    omega
  have hfold := orFold32_value m hm1 hm
  have hszle : Nat.size (m - 1) ≤ 31 := Nat.size_le.mpr (by omega)
  have hcle : 2 ^ Nat.size (m - 1) ≤ 2 ^ 31 := Nat.pow_le_pow_right (by omega) hszle
  have hpow1 : 1 ≤ 2 ^ Nat.size (m - 1) := Nat.one_le_two_pow
  have hmlec : m ≤ 2 ^ Nat.size (m - 1) := by
    have := Nat.lt_size_self (m - 1)
    omega
  simp only [BinaryWriter.reserve, BinaryWriter.capacity] at *
  rw [if_neg (by omega), if_neg (by simp [hconst]), hfold]
  have hj : jsInt32 (2 ^ Nat.size (m - 1) - 1) = ((2 ^ Nat.size (m - 1) - 1 : Nat) : Int) := by
    rw [jsInt32, if_pos (by omega)]
  rw [hj]
  rw [if_pos (by push_cast; omega)]
  have harg : ((((2 ^ Nat.size (m - 1) - 1 : Nat) : Int)) + 1).toNat =
      2 ^ Nat.size (m - 1) := by omega
  rw [harg]

theorem take_set_of_le (l : List Nat) {n i : Nat} (a : Nat) (h : n ≤ i) :
    (l.set i a).take n = l.take n := by
  rw [List.set_take]
  apply List.set_eq_of_length_le
  simp only [List.length_take]
  omega

theorem setAll_length (l src : List Nat) (ofs : Nat)
    (h : ofs + src.length ≤ l.length) :
    (setAll l ofs src).length = l.length := by
  simp only [setAll, List.length_append, List.length_take, List.length_drop]
  omega

theorem take_setAll (l src : List Nat) (ofs : Nat) (h : ofs ≤ l.length) :
    (setAll l ofs src).take ofs = l.take ofs := by
  unfold setAll
  rw [List.append_assoc]
  exact List.take_left' (by simp only [List.length_take]; omega)

/-- The growth contract of one writer operation: no error, the new
`capacity()` is the least power of two at or above the required size `m`,
and the previously written prefix `[0, old size)` is byte-for-byte
unchanged. -/
def growsTo (w : BinaryWriter) (res : WRes) (m : Nat) : Prop :=
  res.2 = none ∧ isLeastPow2Ge res.1.capacity m ∧
    res.1.data.take w.size = w.data.take w.size

/-- Claim C4 (amended): on a growable writer, every data-writing operation
whose required size `m` exceeds the current capacity but stays within the
int32-safe range (`m ≤ 2 ^ 31`) succeeds, reallocates to a capacity that is
exactly the least power of two at or above `m`, and preserves every
previously written byte at its logical offset.  (Beyond `2 ^ 31` the int32
smear in `reserve` overflows and the write fails instead, see the
counterexample.) -/
theorem c4_growable_growth (w : BinaryWriter) (hconst : w.isConst = false)
    (hsz : w.size ≤ w.capacity) :
    (∀ v, w.capacity < w.size + 1 → w.size + 1 ≤ 2 ^ 31 →
      growsTo w (w.write8 v) (w.size + 1)) ∧
    (∀ v, w.capacity < w.size + 2 → w.size + 2 ≤ 2 ^ 31 →
      growsTo w (w.write16 v) (w.size + 2)) ∧
    (∀ v, w.capacity < w.size + 3 → w.size + 3 ≤ 2 ^ 31 →
      growsTo w (w.write24 v) (w.size + 3)) ∧
    (∀ v, w.capacity < w.size + 4 → w.size + 4 ≤ 2 ^ 31 →
      growsTo w (w.write32 v) (w.size + 4)) ∧
    (∀ v, w.capacity < w.size + 4 → w.size + 4 ≤ 2 ^ 31 →
      growsTo w (w.writeFloat v) (w.size + 4)) ∧
    (∀ v, w.capacity < w.size + 8 → w.size + 8 ≤ 2 ^ 31 →
      growsTo w (w.writeDouble v) (w.size + 8)) ∧
    (∀ bs : List Nat, w.capacity < w.size + bs.length →
      w.size + bs.length ≤ 2 ^ 31 →
      growsTo w (w.write bs) (w.size + bs.length)) ∧
    (∀ s : List Nat, w.capacity < w.size + s.length →
      w.size + s.length ≤ 2 ^ 31 →
      growsTo w (w.writeChars s) (w.size + s.length)) := by
  have hszlen : w.size ≤ w.data.length := hsz
  have hmle : ∀ m : Nat, 1 ≤ m → m ≤ 2 ^ Nat.size (m - 1) := by
    intro m hm
    have := Nat.lt_size_self (m - 1)
    omega
  have hlenle : ∀ m : Nat, w.capacity < m → w.data.length ≤ 2 ^ Nat.size (m - 1) := by
    intro m hm
    have h1 := hmle m (by simp [BinaryWriter.capacity] at hm; omega)
    simp only [BinaryWriter.capacity] at hm
    omega
  have hplen : ∀ m : Nat, w.capacity < m →
      (w.data ++ List.replicate (2 ^ Nat.size (m - 1) - w.data.length) 0).length =
        2 ^ Nat.size (m - 1) := by
    intro m hm
    have := hlenle m hm
    simp only [List.length_append, List.length_replicate]
    omega
  have hptake : ∀ k : Nat,
      (w.data ++ List.replicate k 0).take w.size = w.data.take w.size :=
    fun k => List.take_append_of_le_length hszlen
  have hple : ∀ m : Nat, w.capacity < m →
      w.size ≤ (w.data ++ List.replicate (2 ^ Nat.size (m - 1) - w.data.length) 0).length := by
    intro m hm
    rw [hplen m hm]
    exact le_trans hszlen (hlenle m hm)
  have hleast : ∀ m : Nat, w.capacity < m →
      isLeastPow2Ge (2 ^ Nat.size (m - 1)) m := by
    intro m hm
    exact isLeastPow2Ge_pow_size m (by simp [BinaryWriter.capacity] at hm; omega)
  refine ⟨?_, ?_, ?_, ?_, ?_, ?_, ?_, ?_⟩
  · intro v hcap hm
    rw [growsTo]
    simp only [BinaryWriter.write8, reserve_grows w _ hconst hcap hm, wbind]
    refine ⟨by trivial, ?_, ?_⟩
    · simpa only [BinaryWriter.capacity, List.length_set, hplen _ hcap] using
        hleast _ hcap
    · rw [take_set_of_le _ _ (le_refl w.size)]
      exact hptake _
  · intro v hcap hm
    rw [growsTo]
    simp only [BinaryWriter.write16, reserve_grows w _ hconst hcap hm, wbind]
    refine ⟨by trivial, ?_, ?_⟩
    · simpa only [BinaryWriter.capacity, List.length_set, hplen _ hcap] using
        hleast _ hcap
    · rw [take_set_of_le _ _ (by omega : w.size ≤ w.size + 1),
        take_set_of_le _ _ (le_refl w.size)]
      exact hptake _
  · intro v hcap hm
    rw [growsTo]
    simp only [BinaryWriter.write24, reserve_grows w _ hconst hcap hm, wbind]
    refine ⟨by trivial, ?_, ?_⟩
    · simpa only [BinaryWriter.capacity, List.length_set, hplen _ hcap] using
        hleast _ hcap
    · rw [take_set_of_le _ _ (by omega : w.size ≤ w.size + 2),
        take_set_of_le _ _ (by omega : w.size ≤ w.size + 1),
        take_set_of_le _ _ (le_refl w.size)]
      exact hptake _
  · intro v hcap hm
    rw [growsTo]
    simp only [BinaryWriter.write32, reserve_grows w _ hconst hcap hm, wbind]
    refine ⟨by trivial, ?_, ?_⟩
    · simpa only [BinaryWriter.capacity, List.length_set, hplen _ hcap] using
        hleast _ hcap
    · rw [take_set_of_le _ _ (by omega : w.size ≤ w.size + 3),
        take_set_of_le _ _ (by omega : w.size ≤ w.size + 2),
        take_set_of_le _ _ (by omega : w.size ≤ w.size + 1),
        take_set_of_le _ _ (le_refl w.size)]
      exact hptake _
  · intro v hcap hm
    rw [growsTo]
    simp only [BinaryWriter.writeFloat, reserve_grows w _ hconst hcap hm, wbind]
    refine ⟨by trivial, ?_, ?_⟩
    · simpa only [BinaryWriter.capacity, List.length_set, hplen _ hcap] using
        hleast _ hcap
    · rw [take_set_of_le _ _ (by omega : w.size ≤ w.size + 3),
        take_set_of_le _ _ (by omega : w.size ≤ w.size + 2),
        take_set_of_le _ _ (by omega : w.size ≤ w.size + 1),
        take_set_of_le _ _ (le_refl w.size)]
      exact hptake _
  · intro v hcap hm
    rw [growsTo]
    simp only [BinaryWriter.writeDouble, reserve_grows w _ hconst hcap hm, wbind]
    refine ⟨by trivial, ?_, ?_⟩
    · have hfit : w.size +
          ([v % 2 ^ 64 / 2 ^ 56, v % 2 ^ 64 / 2 ^ 48 % 256,
            v % 2 ^ 64 / 2 ^ 40 % 256, v % 2 ^ 64 / 2 ^ 32 % 256,
            v % 2 ^ 64 / 2 ^ 24 % 256, v % 2 ^ 64 / 2 ^ 16 % 256,
            v % 2 ^ 64 / 2 ^ 8 % 256, v % 2 ^ 64 % 256] : List Nat).length ≤
          (w.data ++ List.replicate (2 ^ Nat.size (w.size + 8 - 1) -
            w.data.length) 0).length := by
        rw [hplen _ hcap]
        simpa using hmle (w.size + 8) (by omega)
      rw [BinaryWriter.capacity]
      rw [setAll_length _ _ _ hfit, hplen _ hcap]
      exact hleast _ hcap
    · rw [take_setAll _ _ _ (hple _ hcap)]
      exact hptake _
  · intro bs hcap hm
    rw [growsTo]
    simp only [BinaryWriter.write, reserve_grows w _ hconst hcap hm, wbind]
    refine ⟨by trivial, ?_, ?_⟩
    · have hmm : w.size + bs.length ≤ 2 ^ Nat.size (w.size + bs.length - 1) := by
        refine hmle _ ?_
        simp only [BinaryWriter.capacity] at hcap
        omega
      have hfit : w.size + bs.length ≤
          (w.data ++ List.replicate (2 ^ Nat.size (w.size + bs.length - 1) -
            w.data.length) 0).length := by
        rw [hplen _ hcap]
        exact hmm
      rw [BinaryWriter.capacity]
      rw [setAll_length _ _ _ hfit, hplen _ hcap]
      exact hleast _ hcap
    · rw [take_setAll _ _ _ (hple _ hcap)]
      exact hptake _
  · intro s hcap hm
    rw [growsTo]
    simp only [BinaryWriter.writeChars, reserve_grows w _ hconst hcap hm, wbind]
    refine ⟨by trivial, ?_, ?_⟩
    · have hmm : w.size + s.length ≤ 2 ^ Nat.size (w.size + s.length - 1) := by
        refine hmle _ ?_
        simp only [BinaryWriter.capacity] at hcap
        omega
      have hfit : w.size +
          (s.map fun c => if c > 255 then 32 else c).length ≤
          (w.data ++ List.replicate (2 ^ Nat.size (w.size + s.length - 1) -
            w.data.length) 0).length := by
        rw [hplen _ hcap]
        simpa using hmm
      rw [BinaryWriter.capacity]
      rw [setAll_length _ _ _ hfit, hplen _ hcap]
      simpa using hleast _ hcap
    · rw [take_setAll _ _ _ (hple _ hcap)]
      exact hptake _

/-- Claim C4 counterexample: on a growable writer that already holds
`2 ^ 31` bytes, a one-byte write requires `2 ^ 31 + 1` bytes; the claim
demands the capacity become `2 ^ 32` (the least power of two at or above
the requirement), but the int32 smear in `reserve` turns the requirement
into `-1`, `++size` yields a target capacity of 0, and `data.set` throws a
`RangeError`: the write errors out and the capacity stays `2 ^ 31`. -/
theorem c4_counterexample :
    ((BinaryWriter.mkWrap (List.replicate (2 ^ 31) 0)).write8 7).2.isSome =
        true ∧
      ((BinaryWriter.mkWrap (List.replicate (2 ^ 31) 0)).write8 7).1.capacity =
        2 ^ 31 ∧
      ¬ ((BinaryWriter.mkWrap (List.replicate (2 ^ 31) 0)).write8
        7).1.capacity = 2 ^ 32 := by
  have hfold : orFold32 ((2 ^ 31 + 1 - 1) % 2 ^ 32) = 2 ^ 32 - 1 := by decide
  have hsz : (BinaryWriter.mkWrap (List.replicate (2 ^ 31) 0)).size = 2 ^ 31 :=
    List.length_replicate _ _
  have hlen : (BinaryWriter.mkWrap (List.replicate (2 ^ 31) 0)).data.length =
      2 ^ 31 :=
    List.length_replicate _ _
  have hres : (BinaryWriter.mkWrap (List.replicate (2 ^ 31) 0)).reserve
      (2 ^ 31 + 1) =
      (BinaryWriter.mkWrap (List.replicate (2 ^ 31) 0),
        some "RangeError: source array is too long") := by
    unfold BinaryWriter.reserve
    rw [if_neg (by rw [hlen]; omega)]
    rw [if_neg (by
      rw [show (BinaryWriter.mkWrap (List.replicate (2 ^ 31) 0)).isConst =
        false from rfl]
      exact Bool.false_ne_true)]
    dsimp only []
    rw [hfold]
    rw [show jsInt32 (2 ^ 32 - 1) = -1 by decide]
    rw [if_neg (by rw [hlen]; norm_num)]
  have h8 : (BinaryWriter.mkWrap (List.replicate (2 ^ 31) 0)).write8 7 =
      (BinaryWriter.mkWrap (List.replicate (2 ^ 31) 0),
        some "RangeError: source array is too long") := by
    unfold BinaryWriter.write8
    rw [hsz, hres]
    rfl
  refine ⟨?_, ?_, ?_⟩
  · rw [h8]
    rfl
  · rw [h8]
    exact hlen
  · rw [h8]
    have hcap : ((BinaryWriter.mkWrap (List.replicate (2 ^ 31) 0),
        some "RangeError: source array is too long") : WRes).1.capacity =
        2 ^ 31 := hlen
    rw [hcap]
    norm_num

/-- Witness for C4 on a concrete growable writer of capacity 3 and size 3:
one more byte triggers growth to capacity 4. -/
theorem c4_witness :
    (BinaryWriter.mkWrap [1, 2, 3]).isConst = false ∧
      growsTo (BinaryWriter.mkWrap [1, 2, 3])
        ((BinaryWriter.mkWrap [1, 2, 3]).write8 9)
        ((BinaryWriter.mkWrap [1, 2, 3]).size + 1) :=
  ⟨by decide,
    (c4_growable_growth (BinaryWriter.mkWrap [1, 2, 3]) (by decide)
      (by decide)).1 9 (by decide) (by decide)⟩

/-! ## Claims C1 and C2: the base-128 varint -/

/-- Base-128 digits of `v`, most-significant group first (at least one
group); the amended claim's description of the byte layout. -/
def beGroups7 (v : Nat) : List Nat :=
  if v < 128 then [v] else beGroups7 (v / 128) ++ [v % 128]
termination_by v
decreasing_by exact Nat.div_lt_self (by omega) (by omega)

/-- Set the continuation bit on every group except the last. -/
def markCont : List Nat → List Nat
  | [] => []
  | [b] => [b]
  | b :: rest => (b ||| 0x80) :: markCont rest

/-- `ceil(bits(v) / 7)` groups, minimum 1: the claimed encoding length. -/
def encLen (v : Nat) : Nat := max 1 ((Nat.size v + 6) / 7)

/-- The big-endian base-128 accumulation of `read7Bit`, as a fold. -/
def foldBE (acc : Nat) (bs : List Nat) : Nat :=
  bs.foldl (fun a b => (a <<< 7) ||| (b &&& 0x7f)) acc

/-- The byte list `emit7Go` produces, with the same fuel shape. -/
def emitListGo (value : Nat) : Nat → Nat → List Nat
  | 0, bits => [value &&& (if bits ≠ 0 then 0xff else 0x7f)]
  | fuel + 1, bits =>
    if bits > 1 then
      (0x80 ||| ((value >>> bits) &&& 0xff)) :: emitListGo value fuel (bits - 7)
    else [value &&& (if bits ≠ 0 then 0xff else 0x7f)]

/-- The byte list the emission loop of `write7Bit` produces for a given
starting bit count. -/
def emitList (value bits : Nat) : List Nat :=
  emitListGo value bits bits

/-- The byte sequence `write7Bit(v, 5)` emits for `v < 2 ^ 32`: plain
cont-marked big-endian base-128 groups while the value fits 4 groups, and
for values needing 29..32 bits the 5-byte layout whose final byte carries
the low 8 bits verbatim. -/
def vEnc (v : Nat) : List Nat :=
  if v < 2 ^ 28 then markCont (beGroups7 v)
  else [0x80 ||| ((v >>> 29) &&& 0xff), 0x80 ||| ((v >>> 22) &&& 0xff),
    0x80 ||| ((v >>> 15) &&& 0xff), 0x80 ||| ((v >>> 8) &&& 0xff),
    v &&& 0xff]

theorem and_255 (x : Nat) : x &&& 255 = x % 256 := by
  have h := Nat.and_pow_two_sub_one_eq_mod x 8
  norm_num at h
  exact h

theorem and_127 (x : Nat) : x &&& 127 = x % 128 := by
  have h := Nat.and_pow_two_sub_one_eq_mod x 7
  norm_num at h
  exact h

set_option maxRecDepth 4096 in
theorem or128_lt : ∀ y, y < 256 → 128 ||| y = 128 + y % 128 := by decide

set_option maxRecDepth 4096 in
theorem or128_and128 : ∀ y, y < 256 → (128 ||| y) &&& 128 = 128 := by decide

set_option maxRecDepth 4096 in
theorem and128_of_lt : ∀ y, y < 128 → y &&& 128 = 0 := by decide

set_option maxRecDepth 4096 in
theorem or128_and127 : ∀ y, y < 256 → (128 ||| y) &&& 127 = y % 128 := by
  decide

theorem shiftLeft_lor_eq_add (a d k : Nat) (hd : d < 2 ^ k) :
    (a <<< k) ||| d = 2 ^ k * a + d := by
  refine Nat.eq_of_testBit_eq fun j => ?_
  rw [Nat.testBit_mul_pow_two_add a hd j, Nat.testBit_or, Nat.testBit_shiftLeft]
  rcases Nat.lt_or_ge j k with h | h
  · simp [Nat.not_le.mpr h, h]
  · have hd' : d.testBit j = false :=
      Nat.testBit_lt_two_pow (lt_of_lt_of_le hd (Nat.pow_le_pow_right (by omega) h))
    simp [h, Nat.not_lt.mpr h, hd']

/-- One big-endian accumulation step: shifting in a 7-bit group. -/
theorem shl7_lor (a d : Nat) (hd : d < 128) : (a <<< 7) ||| d = a * 128 + d := by
  rw [shiftLeft_lor_eq_add a d 7 (by omega)]
  ring

/-- In-range `read8`: returns the byte at the cursor and advances by one. -/
theorem read8_at (r : BinaryReader) (h0 : 0 ≤ r.position)
    (h1 : r.position < r.size) (h2 : r.size ≤ (r.data.length : Int)) :
    r.read8 = (r.data.getD r.position.toNat 0,
      { r with position := r.position + 1 }) := by
  simp only [BinaryReader.read8, BinaryReader.next]
  rw [if_neg (by omega : ¬ ((1 : Int) > r.size - r.position))]
  simp only [if_pos rfl]
  rw [show r.position + 1 - 1 = r.position by ring]
  have hc : 0 ≤ r.position ∧ r.position < (r.data.length : Int) := ⟨h0, by omega⟩
  simp [getUint8, hc]

theorem getD_append_head (l1 : List Nat) (x : Nat) (l2 : List Nat) :
    (l1 ++ x :: l2).getD l1.length 0 = x := by
  simp [List.getD_eq_getElem?_getD, List.getElem?_append_right (le_refl l1.length)]

/-- The `read7Bit` loop over a run of continuation-marked bytes followed by
one terminating byte: big-endian accumulation, one byte at a time. -/
theorem read7BitLoop_groups :
    ∀ (cs : List Nat) (last : Nat) (pre post : List Nat) (acc bytes : Nat),
      (∀ c ∈ cs, 128 ≤ c ∧ c < 256) → last < 128 →
      cs.length + 2 ≤ bytes →
      BinaryReader.read7BitLoop
        ⟨pre ++ (cs ++ last :: post),
          ((pre ++ (cs ++ last :: post)).length : Int),
          (pre.length : Int)⟩ bytes acc =
      (foldBE acc (cs ++ [last]),
        ⟨pre ++ (cs ++ last :: post),
          ((pre ++ (cs ++ last :: post)).length : Int),
          ((pre.length + cs.length + 1 : Nat) : Int)⟩) := by
  intro cs
  induction cs with
  | nil =>
    intro last pre post acc bytes hcs hlast hbytes
    simp only [List.nil_append, List.length_nil]
    obtain ⟨b, rfl⟩ : ∃ b, bytes = b + 2 := ⟨bytes - 2, by omega⟩
    rw [BinaryReader.read7BitLoop]
    rw [read8_at _ (by positivity) (by simp <;> omega) (by simp)]
    simp only [Int.toNat_ofNat, getD_append_head]
    rw [if_neg (by simp [and128_of_lt last hlast])]
    simp only [foldBE, List.foldl_cons, List.foldl_nil]
    rw [show ((pre.length + 0 + 1 : Nat) : Int) = (pre.length : Int) + 1 by
      push_cast
      ring]
  | cons c cs ih =>
    intro last pre post acc bytes hcs hlast hbytes
    obtain ⟨b, rfl⟩ : ∃ b, bytes = b + 2 := ⟨bytes - 2, by omega⟩
    rw [BinaryReader.read7BitLoop]
    rw [read8_at _ (by positivity) (by simp <;> omega) (by simp)]
    have hc := hcs c (by simp)
    have hgd : (pre ++ ((c :: cs) ++ last :: post)).getD pre.length 0 = c := by
      rw [show pre ++ ((c :: cs) ++ last :: post) =
        pre ++ c :: (cs ++ last :: post) by simp]
      exact getD_append_head pre c _
    simp only [Int.toNat_ofNat, hgd]
    rw [if_pos (by
      have := or128_and128 (c - 128) (by omega)
      have hc' : (128 : Nat) ||| (c - 128) = c := by
        rw [or128_lt (c - 128) (by omega)]
        omega
      rw [← hc']
      simp [this])]
    have hre : (pre ++ ((c :: cs) ++ last :: post)) =
        (pre ++ [c]) ++ (cs ++ last :: post) := by simp
    have hpos : (pre.length : Int) + 1 = ((pre ++ [c]).length : Nat) := by
      simp
    have := ih last (pre ++ [c]) post ((acc <<< 7) ||| (c &&& 0x7f)) (b + 1)
      (fun x hx => hcs x (by simp [hx])) hlast (by simp at hbytes ⊢; omega)
    rw [show (⟨pre ++ (c :: cs ++ last :: post),
        ((pre ++ (c :: cs ++ last :: post)).length : Int),
        (pre.length : Int) + 1⟩ : BinaryReader) =
      ⟨(pre ++ [c]) ++ (cs ++ last :: post),
        (((pre ++ [c]) ++ (cs ++ last :: post)).length : Int),
        ((pre ++ [c]).length : Int)⟩ by simp]
    rw [this]
    rw [Prod.mk.injEq]
    constructor
    · simp [foldBE]
    · have hdata : pre ++ [c] ++ (cs ++ last :: post) =
          pre ++ (c :: cs ++ last :: post) := by simp
      rw [hdata]
      have hlen2 : ((pre ++ [c]).length + cs.length + 1 : Nat) =
          (pre.length + (c :: cs).length + 1 : Nat) := by simp; omega
      rw [hlen2]

/-- Digit accumulation, base 128, most-significant first. -/
def foldDigits (acc : Nat) (gs : List Nat) : Nat :=
  gs.foldl (fun a g => a * 128 + g) acc

theorem foldBE_markCont :
    ∀ (gs : List Nat), (∀ g ∈ gs, g < 128) → ∀ acc,
      foldBE acc (markCont gs) = foldDigits acc gs := by
  intro gs
  induction gs with
  | nil => intro _ acc; rfl
  | cons g t ih =>
    intro hg acc
    cases t with
    | nil =>
      have hgl := hg g (by simp)
      simp only [markCont, foldBE, foldDigits, List.foldl_cons, List.foldl_nil]
      rw [and_127, Nat.mod_eq_of_lt hgl, shl7_lor _ _ hgl]
    | cons g' t' =>
      have hgl := hg g (by simp)
      have step : (acc <<< 7) ||| ((g ||| 128) &&& 0x7f) = acc * 128 + g := by
        rw [Nat.lor_comm g 128, or128_and127 g (by omega),
          Nat.mod_eq_of_lt hgl, shl7_lor _ _ hgl]
      show foldBE acc ((g ||| 0x80) :: markCont (g' :: t')) = _
      simp only [foldBE, List.foldl_cons] at *
      rw [show ((acc <<< 7) ||| ((g ||| 0x80) &&& 0x7f)) = acc * 128 + g from step]
      exact ih (fun x hx => hg x (by simp [hx])) (acc * 128 + g)

theorem beGroups7_lt (v : Nat) : ∀ g ∈ beGroups7 v, g < 128 := by
  induction v using Nat.strong_induction_on with
  | _ v ih =>
    rw [beGroups7]
    split
    · intro g hg
      simp at hg
      omega
    · intro g hg
      rw [List.mem_append] at hg
      rcases hg with hg | hg
      · exact ih (v / 128) (Nat.div_lt_self (by omega) (by omega)) g hg
      · simp at hg
        subst hg
        exact Nat.mod_lt _ (by omega)

theorem beGroups7_ne_nil (v : Nat) : beGroups7 v ≠ [] := by
  rw [beGroups7]
  split <;> simp

theorem foldDigits_beGroups7 (v : Nat) :
    ∀ acc, foldDigits acc (beGroups7 v) = acc * 128 ^ (beGroups7 v).length + v := by
  induction v using Nat.strong_induction_on with
  | _ v ih =>
    intro acc
    rw [beGroups7]
    split
    · simp [foldDigits]
    · rename_i hv
      rw [show foldDigits acc (beGroups7 (v / 128) ++ [v % 128]) =
          foldDigits acc (beGroups7 (v / 128)) * 128 + v % 128 by
        simp [foldDigits, List.foldl_append]]
      rw [ih (v / 128) (Nat.div_lt_self (by omega) (by omega)) acc]
      simp only [List.length_append, List.length_cons, List.length_nil]
      rw [Nat.pow_succ]
      have := Nat.div_add_mod v 128
      ring_nf
      omega

theorem take_succ_set (l : List Nat) (n a : Nat) (h : n < l.length) :
    (l.set n a).take (n + 1) = l.take n ++ [a] := by
  rw [List.take_succ, take_set_of_le _ _ (le_refl n)]
  congr 1
  rw [List.getElem?_set_self (by simpa using h)]
  rfl

/-- `write8` within capacity: store at the cursor, no error. -/
theorem write8_ok (w : BinaryWriter) (v : Nat) (h : w.size < w.data.length) :
    w.write8 v =
      ({ w with
          data := w.data.set w.size (if v > 0xff then 0xff else v),
          size := w.size + 1 }, none) := by
  unfold BinaryWriter.write8
  rw [show w.reserve (w.size + 1) = (w, none) by
    unfold BinaryWriter.reserve
    rw [if_pos (by omega)]]
  rfl

theorem write8_ok_small (w : BinaryWriter) (v : Nat) (h : w.size < w.data.length)
    (hv : v < 256) :
    w.write8 v =
      ({ w with data := w.data.set w.size v, size := w.size + 1 }, none) := by
  rw [write8_ok w v h, if_neg (by omega)]

/-- The emission loop appends exactly its byte list, byte by byte. -/
theorem emit7Go_spec (value : Nat) :
    ∀ (fuel bits : Nat) (w : BinaryWriter),
      w.size + (emitListGo value fuel bits).length ≤ w.data.length →
      ∃ d : List Nat,
        BinaryWriter.emit7Go value fuel bits w =
          ({ data := d,
              size := w.size + (emitListGo value fuel bits).length,
              isConst := w.isConst }, none) ∧
        d.length = w.data.length ∧
        d.take (w.size + (emitListGo value fuel bits).length) =
          w.data.take w.size ++ emitListGo value fuel bits := by
  have hfin : ∀ bits : Nat, value &&& (if bits ≠ 0 then 0xff else 0x7f) < 256 := by
    intro bits
    split
    · rw [and_255]; exact Nat.mod_lt _ (by omega)
    · rw [and_127]; omega
  intro fuel
  induction fuel with
  | zero =>
    intro bits w hcap
    simp only [emitListGo, List.length_cons, List.length_nil] at hcap ⊢
    refine ⟨w.data.set w.size (value &&& (if bits ≠ 0 then 0xff else 0x7f)),
      ?_, by simp, ?_⟩
    · rw [BinaryWriter.emit7Go,
        write8_ok_small w _ (by omega) (hfin bits)]
    · rw [take_succ_set _ _ _ (by omega)]
  | succ fuel ih =>
    intro bits w hcap
    by_cases hb : bits > 1
    · have hlist : emitListGo value (fuel + 1) bits =
          (0x80 ||| ((value >>> bits) &&& 0xff)) :: emitListGo value fuel (bits - 7) := by
        rw [emitListGo, if_pos hb]
      have hblt : 0x80 ||| ((value >>> bits) &&& 0xff) < 256 := by
        refine lor_lt_pow (n := 8) (by omega) ?_
        rw [and_255]
        exact Nat.mod_lt _ (by omega)
      rw [hlist] at hcap ⊢
      simp only [List.length_cons] at hcap ⊢
      have hsz : w.size < w.data.length := by omega
      have hstep := write8_ok_small w _ hsz hblt
      rw [BinaryWriter.emit7Go, if_pos hb, hstep]
      have hcap' : (({ w with
          data := w.data.set w.size (0x80 ||| ((value >>> bits) &&& 0xff)),
          size := w.size + 1 } : BinaryWriter)).size +
          (emitListGo value fuel (bits - 7)).length ≤
          (({ w with
            data := w.data.set w.size (0x80 ||| ((value >>> bits) &&& 0xff)),
            size := w.size + 1 } : BinaryWriter)).data.length := by
        simp only [List.length_set]
        omega
      obtain ⟨d, heq, hdlen, htake⟩ := ih (bits - 7) _ hcap'
      rw [show wbind (({ w with
          data := w.data.set w.size (0x80 ||| ((value >>> bits) &&& 0xff)),
          size := w.size + 1 } : BinaryWriter), none)
          (fun w' => BinaryWriter.emit7Go value fuel (bits - 7) w') =
        BinaryWriter.emit7Go value fuel (bits - 7)
          ({ w with
            data := w.data.set w.size (0x80 ||| ((value >>> bits) &&& 0xff)),
            size := w.size + 1 }) from rfl]
      refine ⟨d, ?_, ?_, ?_⟩
      · rw [heq]
        simp only []
        congr 2
        omega
      · rw [hdlen]
        simp
      · have h1 : w.size + ((emitListGo value fuel (bits - 7)).length + 1) =
            (w.size + 1) + (emitListGo value fuel (bits - 7)).length := by omega
        rw [h1, htake]
        simp only []
        rw [take_succ_set _ _ _ hsz]
        simp [List.append_assoc]
    · have hlist : emitListGo value (fuel + 1) bits =
          [value &&& (if bits ≠ 0 then 0xff else 0x7f)] := by
        rw [emitListGo, if_neg hb]
      rw [hlist] at hcap ⊢
      simp only [List.length_cons, List.length_nil] at hcap ⊢
      refine ⟨w.data.set w.size (value &&& (if bits ≠ 0 then 0xff else 0x7f)),
        ?_, by simp, ?_⟩
      · rw [BinaryWriter.emit7Go, if_neg hb,
          write8_ok_small w _ (by omega) (hfin bits)]
      · rw [take_succ_set _ _ _ (by omega)]

theorem shiftRight_eq_zero (v k : Nat) (h : v < 2 ^ k) : v >>> k = 0 := by
  rw [Nat.shiftRight_eq_div_pow]
  exact Nat.div_eq_of_lt h

theorem shiftRight_ne_zero (v k : Nat) (h : 2 ^ k ≤ v) : v >>> k ≠ 0 := by
  rw [Nat.shiftRight_eq_div_pow]
  have := Nat.one_le_div_iff (Nat.pos_pow_of_pos k (by omega)) |>.mpr h
  omega

theorem scanLoop28_case1 (v : Nat) (h : v < 2 ^ 7) : scanLoop v 28 = 0 := by
  have h21 := shiftRight_eq_zero v 21 (lt_of_lt_of_le h (by norm_num))
  have h14 := shiftRight_eq_zero v 14 (lt_of_lt_of_le h (by norm_num))
  have h7 := shiftRight_eq_zero v 7 h
  simp [scanLoop, scanLoopGo, h21, h14, h7]

theorem scanLoop28_case2 (v : Nat) (h1 : 2 ^ 7 ≤ v) (h2 : v < 2 ^ 14) :
    scanLoop v 28 = 7 := by
  have h21 := shiftRight_eq_zero v 21 (lt_of_lt_of_le h2 (by norm_num))
  have h14 := shiftRight_eq_zero v 14 h2
  have h7 := shiftRight_ne_zero v 7 h1
  simp [scanLoop, scanLoopGo, h21, h14, h7]

theorem scanLoop28_case3 (v : Nat) (h1 : 2 ^ 14 ≤ v) (h2 : v < 2 ^ 21) :
    scanLoop v 28 = 14 := by
  have h21 := shiftRight_eq_zero v 21 h2
  have h14 := shiftRight_ne_zero v 14 h1
  simp [scanLoop, scanLoopGo, h21, h14]

theorem scanLoop28_case4 (v : Nat) (h1 : 2 ^ 21 ≤ v) : scanLoop v 28 = 21 := by
  have h21 := shiftRight_ne_zero v 21 h1
  simp [scanLoop, scanLoopGo, h21]

theorem emitList0 (v : Nat) : emitList v 0 = [v &&& 0x7f] := by
  simp [emitList, emitListGo]

theorem emitList7 (v : Nat) :
    emitList v 7 = [0x80 ||| ((v >>> 7) &&& 0xff), v &&& 0x7f] := by
  simp [emitList, emitListGo]

theorem emitList14 (v : Nat) :
    emitList v 14 = [0x80 ||| ((v >>> 14) &&& 0xff), 0x80 ||| ((v >>> 7) &&& 0xff),
      v &&& 0x7f] := by
  simp [emitList, emitListGo]

theorem emitList21 (v : Nat) :
    emitList v 21 = [0x80 ||| ((v >>> 21) &&& 0xff), 0x80 ||| ((v >>> 14) &&& 0xff),
      0x80 ||| ((v >>> 7) &&& 0xff), v &&& 0x7f] := by
  simp [emitList, emitListGo]

theorem emitList29 (v : Nat) :
    emitList v 29 = [0x80 ||| ((v >>> 29) &&& 0xff), 0x80 ||| ((v >>> 22) &&& 0xff),
      0x80 ||| ((v >>> 15) &&& 0xff), 0x80 ||| ((v >>> 8) &&& 0xff),
      v &&& 0xff] := by
  simp [emitList, emitListGo]

theorem beGroups7_case1 (v : Nat) (h : v < 128) : beGroups7 v = [v] := by
  rw [beGroups7, if_pos h]

theorem beGroups7_case2 (v : Nat) (h1 : 128 ≤ v) (h2 : v < 2 ^ 14) :
    beGroups7 v = [v / 128, v % 128] := by
  rw [beGroups7, if_neg (by omega),
    beGroups7_case1 (v / 128) (by omega : v / 128 < 128)]
  rfl

theorem beGroups7_case3 (v : Nat) (h1 : 2 ^ 14 ≤ v) (h2 : v < 2 ^ 21) :
    beGroups7 v = [v / 2 ^ 14, v / 128 % 128, v % 128] := by
  rw [beGroups7, if_neg (by omega),
    beGroups7_case2 (v / 128) (by omega) (by omega)]
  simp only [Nat.div_div_eq_div_mul]
  norm_num

theorem beGroups7_case4 (v : Nat) (h1 : 2 ^ 21 ≤ v) (h2 : v < 2 ^ 28) :
    beGroups7 v = [v / 2 ^ 21, v / 2 ^ 14 % 128, v / 128 % 128, v % 128] := by
  rw [beGroups7, if_neg (by omega),
    beGroups7_case3 (v / 128) (by omega) (by omega)]
  simp only [Nat.div_div_eq_div_mul]
  norm_num

/-- A continuation byte as the writer computes it equals the marked base-128
group: the `& 0xff` keeps bit 7, which `| 0x80` forces anyway. -/
theorem contByte (y : Nat) : 0x80 ||| (y &&& 0xff) = (y % 128) ||| 0x80 := by
  rw [and_255, Nat.lor_comm (y % 128) 128, or128_lt (y % 256) (by omega),
    or128_lt (y % 128) (by omega)]
  have h := Nat.mod_mod_of_dvd y (show (128 : Nat) ∣ 256 by norm_num)
  omega

theorem emitList_markCont (v : Nat) (h : v < 2 ^ 28) :
    emitList v (scanLoop v 28) = markCont (beGroups7 v) := by
  rcases Nat.lt_or_ge v 128 with h1 | h1
  · rw [scanLoop28_case1 v (by omega), emitList0, beGroups7_case1 v h1]
    rw [and_127, Nat.mod_eq_of_lt h1]
    rfl
  rcases Nat.lt_or_ge v (2 ^ 14) with h2 | h2
  · rw [scanLoop28_case2 v (by omega) h2, emitList7, beGroups7_case2 v h1 h2]
    simp only [markCont]
    rw [contByte (v >>> 7), Nat.shiftRight_eq_div_pow, and_127]
    norm_num
    rw [Nat.mod_eq_of_lt (show v / 128 < 128 by omega)]
  rcases Nat.lt_or_ge v (2 ^ 21) with h3 | h3
  · rw [scanLoop28_case3 v h2 h3, emitList14, beGroups7_case3 v h2 h3]
    simp only [markCont]
    rw [contByte (v >>> 14), contByte (v >>> 7), and_127]
    simp only [Nat.shiftRight_eq_div_pow]
    norm_num
    rw [Nat.mod_eq_of_lt (show v / 16384 < 128 by omega)]
  · rw [scanLoop28_case4 v h3, emitList21, beGroups7_case4 v h3 h]
    simp only [markCont]
    rw [contByte (v >>> 21), contByte (v >>> 14), contByte (v >>> 7), and_127]
    simp only [Nat.shiftRight_eq_div_pow]
    norm_num
    rw [Nat.mod_eq_of_lt (show v / 2097152 < 128 by omega)]

theorem markCont_length : ∀ l : List Nat, (markCont l).length = l.length := by
  intro l
  induction l with
  | nil => rfl
  | cons a t ih =>
    cases t with
    | nil => rfl
    | cons b t' =>
      show ((a ||| 0x80) :: markCont (b :: t')).length = _
      simp at ih ⊢
      omega

/-- Length of the emission list at the bit counts the scan produces. -/
theorem emitList_length (v bits : Nat) (hb : bits = 0 ∨ bits = 7 ∨ bits = 14 ∨
    bits = 21 ∨ bits = 29) : (emitList v bits).length = bits / 7 + 1 := by
  rcases hb with rfl | rfl | rfl | rfl | rfl
  · rw [emitList0]; rfl
  · rw [emitList7]; rfl
  · rw [emitList14]; rfl
  · rw [emitList21]; rfl
  · rw [emitList29]; rfl

/-- `write7Bit(v, 5)` on a writer with at least five free bytes: no error,
the encoding `vEnc v` is appended, nothing else changes. -/
theorem write7Bit_ok (w : BinaryWriter) (v : Nat) (hv : v < 2 ^ 32)
    (hcap : w.size + 5 ≤ w.data.length) :
    ∃ d : List Nat,
      w.write7Bit v 5 =
        ({ data := d,
            size := w.size + (vEnc v).length,
            isConst := w.isConst }, none) ∧
      d.length = w.data.length ∧
      d.take (w.size + (vEnc v).length) = w.data.take w.size ++ vEnc v := by
  unfold BinaryWriter.write7Bit
  rw [if_neg (by omega), if_neg (by omega)]
  simp only []
  rw [if_neg (by omega : ¬ v > 0xffffffff)]
  rcases Nat.lt_or_ge v (2 ^ 28) with h28 | h28
  · have hfront : v >>> ((5 - 1) * 7) = 0 := shiftRight_eq_zero v 28 (by norm_num at h28 ⊢; omega)
    rw [hfront]
    rw [if_neg (by omega)]
    have henc : vEnc v = emitList v (scanLoop v 28) := by
      rw [vEnc, if_pos h28, emitList_markCont v h28]
    have hlen4 : (emitList v (scanLoop v 28)).length ≤ 5 := by
      rcases Nat.lt_or_ge v 128 with h1 | h1
      · rw [scanLoop28_case1 v (by omega), emitList_length _ _ (by omega)]
        norm_num
      · rcases Nat.lt_or_ge v (2 ^ 14) with h2 | h2
        · rw [scanLoop28_case2 v (by omega) h2, emitList_length _ _ (by omega)]
          norm_num
        · rcases Nat.lt_or_ge v (2 ^ 21) with h3 | h3
          · rw [scanLoop28_case3 v h2 h3, emitList_length _ _ (by omega)]
            norm_num
          · rw [scanLoop28_case4 v h3, emitList_length _ _ (by omega)]
            norm_num
    obtain ⟨d, heq, hdlen, htake⟩ := emit7Go_spec v (scanLoop v 28) (scanLoop v 28) w
      (by
        have : (emitListGo v (scanLoop v 28) (scanLoop v 28)).length ≤ 5 := hlen4
        omega)
    refine ⟨d, ?_, hdlen, ?_⟩
    · rw [show BinaryWriter.emit7 w v (scanLoop v 28) =
        BinaryWriter.emit7Go v (scanLoop v 28) (scanLoop v 28) w from rfl] at *
      rw [heq, henc]
      rfl
    · rw [henc]
      exact htake
  · have hfront : v >>> ((5 - 1) * 7) ≠ 0 := shiftRight_ne_zero v 28 (by norm_num at h28 ⊢; omega)
    rw [if_pos (by simpa using hfront)]
    rw [if_neg (by
      have : v >>> ((5 - 1) * 7) < 16 := by
        rw [Nat.shiftRight_eq_div_pow]
        norm_num
        omega
      omega)]
    have henc : vEnc v = emitList v 29 := by
      rw [vEnc, if_neg (by omega), emitList29]
    obtain ⟨d, heq, hdlen, htake⟩ := emit7Go_spec v 29 29 w
      (by
        have h5 : (emitListGo v 29 29).length = 5 := by
          rw [show emitListGo v 29 29 = emitList v 29 from rfl,
            emitList_length v 29 (by omega)]
        omega)
    refine ⟨d, ?_, hdlen, ?_⟩
    · rw [show (5 - 1) * 7 + 1 = 29 by norm_num]
      rw [show BinaryWriter.emit7 w v 29 = BinaryWriter.emit7Go v 29 29 w from rfl]
      rw [heq, henc]
      rfl
    · rw [henc]
      exact htake

theorem beGroups7_length_le4 (v : Nat) (h : v < 2 ^ 28) :
    (beGroups7 v).length ≤ 4 := by
  rcases Nat.lt_or_ge v 128 with h1 | h1
  · rw [beGroups7_case1 v h1]; norm_num
  rcases Nat.lt_or_ge v (2 ^ 14) with h2 | h2
  · rw [beGroups7_case2 v h1 h2]; norm_num
  rcases Nat.lt_or_ge v (2 ^ 21) with h3 | h3
  · rw [beGroups7_case3 v h2 h3]; norm_num
  · rw [beGroups7_case4 v h3 h]; norm_num

theorem vEnc_length (v : Nat) (hv : v < 2 ^ 32) :
    (vEnc v).length = encLen v := by
  unfold vEnc encLen
  rcases Nat.lt_or_ge v (2 ^ 28) with h28 | h28
  · rw [if_pos h28, markCont_length]
    rcases Nat.lt_or_ge v 128 with h1 | h1
    · rw [beGroups7_case1 v h1]
      have hs : Nat.size v ≤ 7 := Nat.size_le.mpr (by norm_num; omega)
      simp only [List.length_cons, List.length_nil]
      omega
    · rcases Nat.lt_or_ge v (2 ^ 14) with h2 | h2
      · rw [beGroups7_case2 v h1 h2]
        have hs1 : Nat.size v ≤ 14 := Nat.size_le.mpr (by omega)
        have hs2 : 7 < Nat.size v := Nat.lt_size.mpr (by norm_num; omega)
        simp only [List.length_cons, List.length_nil]
        omega
      · rcases Nat.lt_or_ge v (2 ^ 21) with h3 | h3
        · rw [beGroups7_case3 v h2 h3]
          have hs1 : Nat.size v ≤ 21 := Nat.size_le.mpr (by omega)
          have hs2 : 14 < Nat.size v := Nat.lt_size.mpr (by omega)
          simp only [List.length_cons, List.length_nil]
          omega
        · rw [beGroups7_case4 v h3 h28]
          have hs1 : Nat.size v ≤ 28 := Nat.size_le.mpr (by omega)
          have hs2 : 21 < Nat.size v := Nat.lt_size.mpr (by omega)
          simp only [List.length_cons, List.length_nil]
          omega
  · rw [if_neg (by omega)]
    have hs1 : Nat.size v ≤ 32 := Nat.size_le.mpr (by norm_num; omega)
    have hs2 : 28 < Nat.size v := Nat.lt_size.mpr (by omega)
    simp only [List.length_cons, List.length_nil]
    omega

theorem markCont_split : ∀ (gs : List Nat) (hne : gs ≠ []),
    markCont gs = (gs.dropLast.map (fun g => g ||| 0x80)) ++ [gs.getLast hne] := by
  intro gs
  induction gs with
  | nil => intro h; exact absurd rfl h
  | cons a t ih =>
    intro hne
    cases t with
    | nil => simp [markCont]
    | cons b t' =>
      show (a ||| 0x80) :: markCont (b :: t') = _
      rw [ih (by simp)]
      simp [List.getLast_cons]

/-- Reading back a cont-marked base-128 encoding (at most four groups)
recovers the value and stops right after it. -/
theorem read7Bit_markCont (v : Nat) (h28 : v < 2 ^ 28) (post : List Nat) :
    (BinaryReader.mk0 (markCont (beGroups7 v) ++ post)).read7Bit 5 =
      .ok (v, ⟨markCont (beGroups7 v) ++ post,
        ((markCont (beGroups7 v) ++ post).length : Int),
        ((beGroups7 v).length : Int)⟩) := by
  have hne := beGroups7_ne_nil v
  have hglt := beGroups7_lt v
  have hsplit := markCont_split (beGroups7 v) hne
  have hlen4 := beGroups7_length_le4 v h28
  have hlenpos : 1 ≤ (beGroups7 v).length := by
    cases hgs : beGroups7 v with
    | nil => exact absurd hgs hne
    | cons a t => simp
  unfold BinaryReader.read7Bit
  rw [if_neg (by omega), if_neg (by omega)]
  have hdata : markCont (beGroups7 v) ++ post =
      [] ++ (((beGroups7 v).dropLast.map (fun g => g ||| 0x80)) ++
        ((beGroups7 v).getLast hne) :: post) := by
    rw [hsplit]
    simp
  have hcs : ∀ c ∈ (beGroups7 v).dropLast.map (fun g => g ||| 0x80),
      128 ≤ c ∧ c < 256 := by
    intro c hc
    rw [List.mem_map] at hc
    obtain ⟨g, hg, rfl⟩ := hc
    have hglt' : g < 128 := hglt g (List.dropLast_subset _ hg)
    rw [Nat.lor_comm, or128_lt g (by omega)]
    omega
  have hlast : (beGroups7 v).getLast hne < 128 :=
    hglt _ (List.getLast_mem hne)
  have hcslen : ((beGroups7 v).dropLast.map (fun g => g ||| 0x80)).length + 2 ≤ 5 := by
    simp only [List.length_map, List.length_dropLast]
    omega
  have hloop := read7BitLoop_groups
    ((beGroups7 v).dropLast.map (fun g => g ||| 0x80))
    ((beGroups7 v).getLast hne) [] post 0 5 hcs hlast hcslen
  rw [show (BinaryReader.mk0 (markCont (beGroups7 v) ++ post)) =
    ⟨[] ++ (((beGroups7 v).dropLast.map (fun g => g ||| 0x80)) ++
        ((beGroups7 v).getLast hne) :: post),
      (([] ++ (((beGroups7 v).dropLast.map (fun g => g ||| 0x80)) ++
        ((beGroups7 v).getLast hne) :: post)).length : Int),
      (([] : List Nat).length : Int)⟩ by
    rw [BinaryReader.mk0]
    congr 1 <;> rw [hdata]]
  rw [hloop]
  congr 1
  rw [Prod.mk.injEq]
  constructor
  · have : ((beGroups7 v).dropLast.map (fun g => g ||| 0x80)) ++
        [(beGroups7 v).getLast hne] = markCont (beGroups7 v) := hsplit.symm
    rw [this, foldBE_markCont (beGroups7 v) hglt 0, foldDigits_beGroups7 v 0]
    ring
  · congr 1
    · rw [hdata]
    · rw [hdata]
    · simp only [List.length_nil, List.length_map, List.length_dropLast]
      push_cast
      omega

/-- Reading back the 5-byte layout: the first four bytes contribute 7 bits
each, the fifth all 8, reconstructing any `v` below `2 ^ 32`. -/
theorem read7Bit_hi (v : Nat) (h28 : 2 ^ 28 ≤ v) (hv : v < 2 ^ 32) :
    (BinaryReader.mk0 (vEnc v)).read7Bit 5 =
      .ok (v, ⟨vEnc v, ((vEnc v).length : Int), ((vEnc v).length : Int)⟩) := by
  have henc : vEnc v = [0x80 ||| ((v >>> 29) &&& 0xff),
      0x80 ||| ((v >>> 22) &&& 0xff), 0x80 ||| ((v >>> 15) &&& 0xff),
      0x80 ||| ((v >>> 8) &&& 0xff), v &&& 0xff] := by
    rw [vEnc, if_neg (by omega)]
  have hlen : (vEnc v).length = 5 := by rw [henc]; rfl
  have hb : ∀ k : Nat, (0x80 ||| ((v >>> k) &&& 0xff)) &&& 0x80 = 128 :=
    fun k => or128_and128 _ (by rw [and_255]; omega)
  have hm : ∀ k : Nat, (0x80 ||| ((v >>> k) &&& 0xff)) &&& 0x7f =
      (v >>> k) % 128 := by
    intro k
    rw [or128_and127 _ (by rw [and_255]; omega), and_255,
      Nat.mod_mod_of_dvd _ (show (128 : Nat) ∣ 256 by norm_num)]
  rw [henc]
  unfold BinaryReader.read7Bit
  rw [if_neg (by omega), if_neg (by omega)]
  simp only [BinaryReader.read7BitLoop, BinaryReader.read8, BinaryReader.next,
    getUint8, BinaryReader.mk0, List.length_cons, List.length_nil]
  have ht2 : ((2 : Int)).toNat = 2 := rfl
  have ht3 : ((3 : Int)).toNat = 3 := rfl
  have ht4 : ((4 : Int)).toNat = 4 := rfl
  norm_num [hb, hm, List.getD, Int.toNat_ofNat, ht2, ht3, ht4]
  rw [shl7_lor _ _ (Nat.mod_lt _ (by norm_num)),
    shl7_lor _ _ (Nat.mod_lt _ (by norm_num)),
    shl7_lor _ _ (Nat.mod_lt _ (by norm_num)), and_255]
  simp only [Nat.shiftRight_eq_div_pow]
  norm_num
  omega

/-- `write7Bit(v, 5)` on a fresh default writer emits exactly `vEnc v`. -/
theorem write7Bit_mk64 (v : Nat) (hv : v < 2 ^ 32) :
    ((BinaryWriter.mk0 64).write7Bit v 5).2 = none ∧
    ((BinaryWriter.mk0 64).write7Bit v 5).1.size = (vEnc v).length ∧
    ((BinaryWriter.mk0 64).write7Bit v 5).1.dataOut = vEnc v := by
  obtain ⟨d, heq, hdlen, htake⟩ := write7Bit_ok (BinaryWriter.mk0 64) v hv
    (by simp [BinaryWriter.mk0])
  rw [heq]
  refine ⟨rfl, by simp [BinaryWriter.mk0], ?_⟩
  show d.take ((BinaryWriter.mk0 64).size + (vEnc v).length) = vEnc v
  simpa [BinaryWriter.mk0] using htake

/-- Claim C1 counterexample: the encoding is big-endian, not little-endian.
Reading `[0x81, 0x00]` yields 128 (the first byte carries the
most-significant 7 bits), where the claimed little-endian layout would
yield 1; and the 5-byte encoding of `2 ^ 28 + 128` ends in `0x80`, a byte
with the continuation bit set, contradicting the claim that every emitted
byte except the last carries `0x80`. -/
theorem c1_counterexample :
    Except.map Prod.fst ((BinaryReader.mk0 [0x81, 0x00]).read7Bit 5) =
        .ok 128 ∧
      ¬ Except.map Prod.fst ((BinaryReader.mk0 [0x81, 0x00]).read7Bit 5) =
        .ok 1 ∧
      (((BinaryWriter.mk0 64).write7Bit (2 ^ 28 + 128) 5).1.dataOut.getLast?
        = some 0x80) := by
  decide

/-- Claim C1 (amended): the varint is big-endian base-128.  Reading: for any
continuation-marked byte run (up to three marked bytes and a final clear
byte), `read7Bit` folds most-significant group first (`foldBE`).  Writing:
for every `v < 2 ^ 28`, `write7Bit` emits the base-128 groups of `v`
most-significant first, with the continuation bit on every byte except the
last (`markCont (beGroups7 v)`); values needing 29..32 bits take a fifth
byte holding the low 8 bits verbatim, whose continuation bit is not
meaningful. -/
theorem c1_varint_big_endian :
    (∀ (cs : List Nat) (last : Nat), (∀ c ∈ cs, 128 ≤ c ∧ c < 256) →
      last < 128 → cs.length ≤ 3 →
      Except.map Prod.fst ((BinaryReader.mk0 (cs ++ [last])).read7Bit 5) =
        .ok (foldBE 0 (cs ++ [last]))) ∧
    (∀ v : Nat, v < 2 ^ 28 →
      ((BinaryWriter.mk0 64).write7Bit v 5).2 = none ∧
      ((BinaryWriter.mk0 64).write7Bit v 5).1.dataOut =
        markCont (beGroups7 v)) := by
  constructor
  · intro cs last hcs hlast hlen
    unfold BinaryReader.read7Bit
    rw [if_neg (by omega), if_neg (by omega)]
    have hloop := read7BitLoop_groups cs last [] [] 0 5 hcs hlast (by omega)
    rw [show BinaryReader.mk0 (cs ++ [last]) =
      ⟨[] ++ (cs ++ last :: []), (([] ++ (cs ++ last :: [])).length : Int),
        (([] : List Nat).length : Int)⟩ by
      rw [BinaryReader.mk0]
      congr 1 <;> simp]
    rw [hloop]
    rfl
  · intro v h28
    obtain ⟨h1, h2, h3⟩ := write7Bit_mk64 v (by omega)
    refine ⟨h1, ?_⟩
    rw [h3, vEnc, if_pos h28]

/-- Witness for C1: the two-byte run `[0x82, 0x2C]` decodes big-endian to
300, and writing 300 emits exactly that cont-marked group list. -/
theorem c1_witness :
    Except.map Prod.fst ((BinaryReader.mk0 ([0x82] ++ [0x2C])).read7Bit 5) =
        .ok (foldBE 0 ([0x82] ++ [0x2C])) ∧
      ((BinaryWriter.mk0 64).write7Bit 300 5).1.dataOut =
        markCont (beGroups7 300) := by
  refine ⟨c1_varint_big_endian.1 [0x82] 0x2C (by decide) (by decide)
    (by decide), (c1_varint_big_endian.2 300 (by decide)).2⟩

/-- Claim C2 counterexample: the round trip is not exact over the whole
safe-integer range: `2 ^ 32` is clamped by the writer to `0xffffffff`, so
reading back yields `4294967295`, not `4294967296`. -/
theorem c2_counterexample :
    Except.map Prod.fst ((BinaryReader.mk0
        (((BinaryWriter.mk0 64).write7Bit (2 ^ 32) 5).1.dataOut)).read7Bit 5) =
      .ok (2 ^ 32 - 1) ∧
    ¬ Except.map Prod.fst ((BinaryReader.mk0
        (((BinaryWriter.mk0 64).write7Bit (2 ^ 32) 5).1.dataOut)).read7Bit 5) =
      .ok (2 ^ 32) := by
  decide

/-- Claim C2 (amended): for every `v < 2 ^ 32`, writing `v` with the default
5-byte budget and reading it back yields exactly `v`, and the number of
bytes emitted is `max 1 (ceil (bits v / 7))`; values at or above `2 ^ 32`
are clamped by the writer to `0xffffffff` before encoding. -/
theorem c2_varint_roundtrip (v : Nat) (hv : v < 2 ^ 32) :
    ((BinaryWriter.mk0 64).write7Bit v 5).2 = none ∧
    ((BinaryWriter.mk0 64).write7Bit v 5).1.size = encLen v ∧
    Except.map Prod.fst ((BinaryReader.mk0
        (((BinaryWriter.mk0 64).write7Bit v 5).1.dataOut)).read7Bit 5) =
      .ok v := by
  obtain ⟨h1, h2, h3⟩ := write7Bit_mk64 v hv
  refine ⟨h1, by rw [h2, vEnc_length v hv], ?_⟩
  rw [h3]
  rcases Nat.lt_or_ge v (2 ^ 28) with h28 | h28
  · rw [show vEnc v = markCont (beGroups7 v) ++ [] by
      rw [vEnc, if_pos h28]; simp]
    rw [read7Bit_markCont v h28 []]
    rfl
  · rw [read7Bit_hi v h28 hv]
    rfl

/-- Witness for C2 at `v = 300`: two bytes, exact round trip. -/
theorem c2_witness :
    ((BinaryWriter.mk0 64).write7Bit 300 5).2 = none ∧
    ((BinaryWriter.mk0 64).write7Bit 300 5).1.size = encLen 300 ∧
    Except.map Prod.fst ((BinaryReader.mk0
        (((BinaryWriter.mk0 64).write7Bit 300 5).1.dataOut)).read7Bit 5) =
      .ok 300 :=
  c2_varint_roundtrip 300 (by decide)

/-- `reserve` within capacity is a no-op. -/
theorem reserve_noop (w : BinaryWriter) (m : Nat) (h : m ≤ w.data.length) :
    w.reserve m = (w, none) := by
  rw [BinaryWriter.reserve, if_pos h]

/-- The encoding of a length below 128 is the single byte itself. -/
theorem vEnc_small (v : Nat) (h : v < 128) : vEnc v = [v] := by
  rw [vEnc, if_pos (by omega : v < 2 ^ 28), beGroups7_case1 v h]
  rfl

/-- The string branch's per-char mapping is the identity on byte values. -/
theorem map_codes_id (s : List Nat) (hb : ∀ c ∈ s, c ≤ 255) :
    (s.map fun c => if c > 255 then 32 else c) = s := by
  induction s with
  | nil => rfl
  | cons a t ih =>
    simp only [List.map_cons]
    rw [if_neg (by have := hb a (by simp); omega),
      ih fun c hc => hb c (by simp [hc])]

/-- Claim C8 counterexample: writing `"Hello"` emits a length prefix, not a
trailing `0x00`; and reading the claim's C-string layout
`[72, 101, 108, 108, 111, 0]` does not yield `"Hello"` (the first byte is
taken as a length of 72, far past the available data). -/
theorem c8_counterexample :
    ((BinaryWriter.mk0 16).writeString [72, 101, 108, 108, 111]).1.dataOut =
        [5, 72, 101, 108, 108, 111] ∧
      ¬ ((BinaryWriter.mk0 16).writeString [72, 101, 108, 108, 111]).1.dataOut
        = [72, 101, 108, 108, 111, 0] ∧
      ¬ Except.map Prod.fst (BinaryReader.readString
          (BinaryReader.mk0 [72, 101, 108, 108, 111, 0])) =
        .ok [72, 101, 108, 108, 111] := by
  decide

/-- Claim C8 (amended): strings are length-prefixed, not 0x00-terminated.
For every char-code list `s` shorter than 128 whose codes are bytes,
`writeString` on a fresh writer of sufficient capacity succeeds and emits
the one-byte length `s.length` followed by the codes themselves, and
`readString` over exactly those bytes yields `s` back (consuming the length
prefix and the payload). -/
theorem c8_string_roundtrip (s : List Nat) (hlen : s.length < 128)
    (hb : ∀ c ∈ s, c ≤ 255) :
    ((BinaryWriter.mk0 (s.length + 8)).writeString s).2 = none ∧
    ((BinaryWriter.mk0 (s.length + 8)).writeString s).1.dataOut =
      s.length :: s ∧
    Except.map Prod.fst (BinaryReader.readString (BinaryReader.mk0
        (((BinaryWriter.mk0 (s.length + 8)).writeString s).1.dataOut))) =
      .ok s := by
  obtain ⟨d, heqA, hdlen, htakeA⟩ :=
    write7Bit_ok (BinaryWriter.mk0 (s.length + 8)) s.length (by omega)
      (by simp [BinaryWriter.mk0])
  have hdl : d.length = s.length + 8 := by
    rw [hdlen]
    simp [BinaryWriter.mk0]
  have hsz : (BinaryWriter.mk0 (s.length + 8)).size = 0 := rfl
  rw [vEnc_small s.length hlen, hsz] at heqA htakeA
  simp only [List.length_singleton, Nat.zero_add, List.take_zero,
    List.nil_append] at heqA htakeA
  have hic : (BinaryWriter.mk0 (s.length + 8)).isConst = false := rfl
  rw [hic] at heqA
  have hchain : (BinaryWriter.mk0 (s.length + 8)).writeString s =
      ({ data := setAll d 1 (s.map fun c => if c > 255 then 32 else c),
          size := 1 + s.length,
          isConst := false }, none) := by
    rw [BinaryWriter.writeString, heqA]
    show ({ data := d, size := 1, isConst := false } :
      BinaryWriter).writeChars s = _
    have hres : ({ data := d, size := 1, isConst := false } :
        BinaryWriter).reserve (1 + s.length) =
        ({ data := d, size := 1, isConst := false }, none) :=
      reserve_noop _ _ (by show 1 + s.length ≤ d.length; omega)
    simp only [BinaryWriter.writeChars, hres, wbind]
  have h2 : ((BinaryWriter.mk0 (s.length + 8)).writeString s).1.dataOut =
      s.length :: s := by
    rw [hchain, BinaryWriter.dataOut]
    show (setAll d 1 (s.map fun c => if c > 255 then 32 else c)).take
      (1 + s.length) = _
    rw [setAll, map_codes_id s hb, List.take_left'
      (by rw [List.length_append, List.length_take]; omega), htakeA]
    rfl
  refine ⟨by rw [hchain], h2, ?_⟩
  rw [h2]
  have hr := read7Bit_markCont s.length (by omega) s
  rw [beGroups7_case1 s.length hlen,
    show markCont [s.length] = [s.length] from rfl] at hr
  rw [BinaryReader.readString, show (s.length :: s) = [s.length] ++ s from
    rfl, hr]
  simp only [Except.map]
  rw [BinaryReader.read, if_neg (by
    simp only [BinaryReader.available, List.length_append,
      List.length_singleton]
    push_cast
    omega)]
  simp [List.take_length]

/-- Witness for C8 at `"Hello"` (`[72, 101, 108, 108, 111]`): the writer
emits `[5, 72, 101, 108, 108, 111]` and reading it back yields the
original codes. -/
theorem c8_witness :
    ((BinaryWriter.mk0 (([72, 101, 108, 108, 111] : List Nat).length +
        8)).writeString [72, 101, 108, 108, 111]).2 = none ∧
    ((BinaryWriter.mk0 (([72, 101, 108, 108, 111] : List Nat).length +
        8)).writeString [72, 101, 108, 108, 111]).1.dataOut =
      ([72, 101, 108, 108, 111] : List Nat).length ::
        [72, 101, 108, 108, 111] ∧
    Except.map Prod.fst (BinaryReader.readString (BinaryReader.mk0
        (((BinaryWriter.mk0 (([72, 101, 108, 108, 111] : List Nat).length +
          8)).writeString [72, 101, 108, 108, 111]).1.dataOut))) =
      .ok [72, 101, 108, 108, 111] :=
  c8_string_roundtrip [72, 101, 108, 108, 111] (by decide) (by decide)

/-! ## BitReader -/

/-- The `BitReader` state: the wrapped bytes, `_size` (always the byte
length), the byte cursor `_position` and the bit cursor `_bit`. -/
structure BitReader where
  data : List Nat
  size : Nat
  position : Nat
  bit : Nat
deriving Repr, DecidableEq

/-- Constructor `new BitReader(data)`: wraps the bytes, `_size` is the byte
length, both cursors start at 0. -/
def BitReader.mk0 (data : List Nat) : BitReader :=
  { data := data, size := data.length, position := 0, bit := 0 }

/-- `available()`: `(this._size - this._position) * 8 - this._bit`.  On the
states the class can reach (`position ≤ size`, and `bit = 0` once
`position = size`) the JS number is never negative, so the Nat-truncated
subtraction agrees with it. -/
def BitReader.available (r : BitReader) : Nat :=
  (r.size - r.position) * 8 - r.bit

/-- States reachable through the class: `_size` is the byte length, the
cursor does not pass the end, `_bit` stays below 8 and is reset to 0 the
moment `_position` reaches `_size`. -/
def BitReader.Wf (r : BitReader) : Prop :=
  r.size = r.data.length ∧ r.position ≤ r.size ∧ r.bit < 8 ∧
    (r.position = r.size → r.bit = 0)

instance (r : BitReader) : Decidable r.Wf := by
  unfold BitReader.Wf
  infer_instance

/-- The loop of `read(count)`, structurally on the remaining `count` (the
JS guard `position !== size && count--` stops on whichever runs out first).
`result <<= 1` is an int32 shift, so the accumulator is tracked as a uint32
bit pattern reduced `% 2 ^ 32`; `result |= 1` sets the fresh low bit. -/
def BitReader.readLoop (r : BitReader) (pattern : Nat) : Nat → Nat × BitReader
  | 0 => (pattern, r)
  | count + 1 =>
    if r.position = r.size then (pattern, r)
    else
      let b := if r.data.getD r.position 0 &&& (0x80 >>> r.bit) ≠ 0
        then 1 else 0
      let pattern := (2 * pattern + b) % 2 ^ 32
      if r.bit + 1 = 8 then
        BitReader.readLoop
          { r with bit := 0, position := r.position + 1 } pattern count
      else
        BitReader.readLoop { r with bit := r.bit + 1 } pattern count

/-- `read(count = 1)`: run the loop from 0 and return the accumulator as a
JS int32 (the `<<=`/`|=` steps make `result` an int32 value). -/
def BitReader.read (r : BitReader) (count : Nat) : Int × BitReader :=
  let p := r.readLoop 0 count
  (jsInt32 p.1, p.2)

/-- The `while (!this.read()) { if (!this.available()) return 0; ++i; }`
scan of `readExpGolomb`, with explicit fuel.  Every iteration that
continues has read one bit with at least one more available, so the loop
runs at most `available()` times; any fuel of at least `available() + 1`
reproduces the JS loop exactly.  `none` is the in-loop `return 0` (buffer
exhausted); `some i` exits with the zero count. -/
def BitReader.egLoopGo (r : BitReader) (i : Nat) : Nat → Option Nat × BitReader
  | 0 => (none, r)
  | fuel + 1 =>
    let p := r.read 1
    if p.1 ≠ 0 then (some i, p.2)
    else if p.2.available = 0 then (none, p.2)
    else BitReader.egLoopGo p.2 (i + 1) fuel

/-- `readExpGolomb()`: count the zero bits before the first 1 bit, read
that many suffix bits, and return `result + (1 << i) - 1` — except that a
zero count `i > 15` logs a warning (side effect omitted here) and returns
0 after the suffix bits were already consumed.  The scan fuel
`available + 1` is enough for the loop to finish on its own (see
`egLoopGo`). -/
def BitReader.readExpGolomb (r : BitReader) : Int × BitReader :=
  match BitReader.egLoopGo r 0 (r.available + 1) with
  | (none, r1) => (0, r1)
  | (some i, r1) =>
    let p := r1.read i
    if i > 15 then (0, p.2)
    else (p.1 + 2 ^ i - 1, p.2)

/-- The bit `read` would deliver `t` positions ahead of the cursor of `r`:
bit `7 - ((bit + t) % 8)` of byte `position + (bit + t) / 8`, as 0 or 1. -/
def bitAt (r : BitReader) (t : Nat) : Nat :=
  if r.data.getD (r.position + (r.bit + t) / 8) 0 &&&
      (0x80 >>> ((r.bit + t) % 8)) ≠ 0 then 1 else 0

/-- The most-significant-bit-first value of the next `k` bits: each new bit
enters at the low end, so the first bit of the stream ends up most
significant. -/
def bitsVal (r : BitReader) : Nat → Nat
  | 0 => 0
  | k + 1 => 2 * bitsVal r k + bitAt r (k)

/-- The cursor after consuming `n` bits: `8 * position + bit` advances by
`n`, re-split into a byte index and a bit offset. -/
def advanceBits (r : BitReader) (n : Nat) : BitReader :=
  { r with
      position := r.position + (r.bit + n) / 8,
      bit := (r.bit + n) % 8 }

theorem advanceBits_zero (r : BitReader) (h : r.bit < 8) :
    advanceBits r 0 = r := by
  simp only [advanceBits]
  rw [show (r.bit + 0) / 8 = 0 from by omega,
    show (r.bit + 0) % 8 = r.bit from by omega, Nat.add_zero]

theorem bitAt_advance (r : BitReader) (m t : Nat) :
    bitAt (advanceBits r m) t = bitAt r (m + t) := by
  have e1 : r.position + (r.bit + m) / 8 + ((r.bit + m) % 8 + t) / 8 =
    r.position + (r.bit + (m + t)) / 8 := by omega
  have e2 : ((r.bit + m) % 8 + t) % 8 = (r.bit + (m + t)) % 8 := by omega
  simp only [bitAt, advanceBits, e1, e2]

theorem advanceBits_add (r : BitReader) (m t : Nat) :
    advanceBits (advanceBits r m) t = advanceBits r (m + t) := by
  simp only [advanceBits]
  rw [show r.position + (r.bit + m) / 8 + ((r.bit + m) % 8 + t) / 8 =
    r.position + (r.bit + (m + t)) / 8 from by omega,
    show ((r.bit + m) % 8 + t) % 8 = (r.bit + (m + t)) % 8 from by omega]

theorem available_advance (r : BitReader) (m : Nat) (h : m ≤ r.available) :
    (advanceBits r m).available = r.available - m := by
  simp only [advanceBits, BitReader.available] at *
  omega

theorem wf_advance (r : BitReader) (m : Nat) (h : m ≤ r.available)
    (hwf : r.Wf) : (advanceBits r m).Wf := by
  obtain ⟨h1, h2, h3, h4⟩ := hwf
  simp only [advanceBits, BitReader.Wf, BitReader.available] at *
  refine ⟨h1, by omega, by omega, by omega⟩

theorem bitAt_le_one (r : BitReader) (t : Nat) : bitAt r t ≤ 1 := by
  unfold bitAt
  split <;> omega

theorem bitsVal_lt (r : BitReader) (k : Nat) : bitsVal r k < 2 ^ k := by
  induction k with
  | zero => simp [bitsVal]
  | succ k ih =>
    have := bitAt_le_one r k
    show 2 * bitsVal r k + bitAt r k < 2 ^ (k + 1)
    rw [pow_succ]
    omega

theorem bitsVal_cons (r : BitReader) (k : Nat) :
    bitsVal r (k + 1) = bitAt r 0 * 2 ^ k + bitsVal (advanceBits r 1) k := by
  induction k with
  | zero => simp [bitsVal]
  | succ k ih =>
    have h1 : bitsVal r (k + 1 + 1) =
      2 * bitsVal r (k + 1) + bitAt r (k + 1) := rfl
    have h2 : bitsVal (advanceBits r 1) (k + 1) =
      2 * bitsVal (advanceBits r 1) k + bitAt (advanceBits r 1) k := rfl
    rw [h1, ih, h2, bitAt_advance, Nat.add_comm 1 k]
    ring

theorem readLoop_spec (n : Nat) : ∀ (r : BitReader), r.Wf →
    ∀ pat, pat < 2 ^ 32 →
    r.readLoop pat n =
      ((pat * 2 ^ min n r.available + bitsVal r (min n r.available)) % 2 ^ 32,
        advanceBits r (min n r.available)) := by
  induction n with
  | zero =>
    intro r hwf pat hpat
    show (pat, r) = _
    rw [Nat.zero_min, advanceBits_zero r hwf.2.2.1]
    simp only [bitsVal, pow_zero, Nat.mul_one, Nat.add_zero]
    rw [Nat.mod_eq_of_lt hpat]
  | succ n ih =>
    intro r hwf pat hpat
    by_cases hend : r.position = r.size
    · have hav : r.available = 0 := by
        have := hwf.2.2.2 hend
        simp only [BitReader.available]
        omega
      rw [hav, Nat.min_zero]
      simp only [BitReader.readLoop]
      rw [if_pos hend, advanceBits_zero r hwf.2.2.1]
      simp only [bitsVal, pow_zero, Nat.mul_one, Nat.add_zero]
      rw [Nat.mod_eq_of_lt hpat]
    · have hbit := hwf.2.2.1
      have hpos : r.position < r.size := lt_of_le_of_ne hwf.2.1 hend
      have hav1 : 1 ≤ r.available := by
        simp only [BitReader.available]
        omega
      have havm : min (n + 1) r.available =
          min n ((advanceBits r 1).available) + 1 := by
        rw [available_advance r 1 hav1]
        omega
      have hwf' := wf_advance r 1 hav1 hwf
      have hb : ∀ c : Nat,
          (if r.data.getD r.position 0 &&& (0x80 >>> r.bit) ≠ 0
            then (1 : Nat) else 0) = bitAt r 0 := by
        intro _
        rw [bitAt, show r.position + (r.bit + 0) / 8 = r.position from
          by omega, show (r.bit + 0) % 8 = r.bit from by omega]
      simp only [BitReader.readLoop]
      rw [if_neg hend]
      by_cases h8 : r.bit + 1 = 8
      · rw [if_pos h8]
        have hradv : ({ r with bit := 0, position := r.position + 1 } :
            BitReader) = advanceBits r 1 := by
          simp only [advanceBits]
          rw [show (r.bit + 1) / 8 = 1 from by omega,
            show (r.bit + 1) % 8 = 0 from by omega]
        rw [hb 0, hradv, ih (advanceBits r 1) hwf'
          ((2 * pat + bitAt r 0) % 2 ^ 32) (Nat.mod_lt _ (by norm_num)),
          havm, advanceBits_add, bitsVal_cons]
        rw [Prod.mk.injEq]
        constructor
        · conv_lhs => rw [Nat.add_mod, Nat.mod_mul_mod, ← Nat.add_mod]
          rw [pow_succ]
          congr 1
          ring
        · congr 1
          omega
      · rw [if_neg h8]
        have hradv : ({ r with bit := r.bit + 1 } : BitReader) =
            advanceBits r 1 := by
          simp only [advanceBits]
          rw [BitReader.mk.injEq]
          refine ⟨rfl, rfl, by omega, by omega⟩
        rw [hb 0, hradv, ih (advanceBits r 1) hwf'
          ((2 * pat + bitAt r 0) % 2 ^ 32) (Nat.mod_lt _ (by norm_num)),
          havm, advanceBits_add, bitsVal_cons]
        rw [Prod.mk.injEq]
        constructor
        · conv_lhs => rw [Nat.add_mod, Nat.mod_mul_mod, ← Nat.add_mod]
          rw [pow_succ]
          congr 1
          ring
        · congr 1
          omega

theorem read_spec (r : BitReader) (hwf : r.Wf) (n : Nat) :
    r.read n =
      (jsInt32 (bitsVal r (min n r.available) % 2 ^ 32),
        advanceBits r (min n r.available)) := by
  unfold BitReader.read
  rw [readLoop_spec n r hwf 0 (by norm_num)]
  simp

/-- Claim C6 counterexample: a 12-bit read of the single byte `0x80`
exhausts the buffer after 8 bits and returns the partial accumulation 128,
not the claimed 0; and a 32-bit read of `0xffffffff` returns the int32
value -1, not the unsigned big-endian integer 4294967295. -/
theorem c6_counterexample :
    ((BitReader.mk0 [0x80]).read 12).1 = 128 ∧
      ¬ ((BitReader.mk0 [0x80]).read 12).1 = 0 ∧
      ((BitReader.mk0 [0xff, 0xff, 0xff, 0xff]).read 32).1 = -1 ∧
      ¬ ((BitReader.mk0 [0xff, 0xff, 0xff, 0xff]).read 32).1 =
        4294967295 := by
  decide

/-- Claim C6 (amended): on every reachable reader state, `read(n)` consumes
`min n available()` bits most-significant-bit-first (bit 7 down to bit 0
within each byte) into a big-endian accumulator and returns it as a JS
int32 (wrapping at 32 bits); when the buffer runs out mid-read it returns
the partial accumulation of the bits it did consume, not 0. -/
theorem c6_bitreader_read (r : BitReader) (hwf : r.Wf) (n : Nat) :
    r.read n =
      (jsInt32 (bitsVal r (min n r.available) % 2 ^ 32),
        advanceBits r (min n r.available)) :=
  read_spec r hwf n

/-- Witness for C6: a 4-bit read of `0xf0` yields `0b1111` as the
accumulation of its four leading bits. -/
theorem c6_witness :
    (BitReader.mk0 [0xf0]).Wf ∧
      (BitReader.mk0 [0xf0]).read 4 =
        (jsInt32 (bitsVal (BitReader.mk0 [0xf0])
            (min 4 (BitReader.mk0 [0xf0]).available) % 2 ^ 32),
          advanceBits (BitReader.mk0 [0xf0])
            (min 4 (BitReader.mk0 [0xf0]).available)) :=
  ⟨by decide, c6_bitreader_read (BitReader.mk0 [0xf0]) (by decide) 4⟩

/-- The unary scan of `readExpGolomb` on a stream whose next `k` bits are
zero followed by a 1 bit: it exits with count `i + k` having consumed
`k + 1` bits, provided the fuel exceeds `k` and at least `2 * k + 1` bits
are available (so the in-loop `available()` check never fires). -/
theorem egLoopGo_spec (k : Nat) : ∀ (r : BitReader) (i fuel : Nat), r.Wf →
    k < fuel → 2 * k + 1 ≤ r.available →
    (∀ t, t < k → bitAt r t = 0) → bitAt r k = 1 →
    BitReader.egLoopGo r i fuel = (some (i + k), advanceBits r (k + 1)) := by
  induction k with
  | zero =>
    intro r i fuel hwf hfuel hav hz h1
    obtain ⟨f, rfl⟩ : ∃ f, fuel = f + 1 := ⟨fuel - 1, by omega⟩
    simp only [BitReader.egLoopGo]
    rw [read_spec r hwf 1, show min 1 r.available = 1 from by omega]
    have hv : bitsVal r 1 = 1 := by
      show 2 * bitsVal r 0 + bitAt r 0 = 1
      show 2 * 0 + bitAt r 0 = 1
      omega
    rw [hv]
    rw [if_pos (by decide : (jsInt32 (1 % 2 ^ 32) ≠ 0))]
    rfl
  | succ k ih =>
    intro r i fuel hwf hfuel hav hz h1
    obtain ⟨f, rfl⟩ : ∃ f, fuel = f + 1 := ⟨fuel - 1, by omega⟩
    simp only [BitReader.egLoopGo]
    rw [read_spec r hwf 1, show min 1 r.available = 1 from by omega]
    have hv : bitsVal r 1 = 0 := by
      show 2 * bitsVal r 0 + bitAt r 0 = 0
      show 2 * 0 + bitAt r 0 = 0
      rw [hz 0 (by omega)]
    rw [hv]
    rw [if_neg (by decide : ¬ (jsInt32 (0 % 2 ^ 32) ≠ 0))]
    rw [if_neg (by
      rw [available_advance r 1 (by omega)]
      omega)]
    rw [ih (advanceBits r 1) (i + 1) f (wf_advance r 1 (by omega) hwf)
      (by omega)
      (by rw [available_advance r 1 (by omega)]; omega)
      (fun t ht => by rw [bitAt_advance]; exact hz (1 + t) (by omega))
      (by rw [bitAt_advance, Nat.add_comm 1 k]; exact h1)]
    rw [advanceBits_add, Prod.mk.injEq]
    constructor
    · rw [Option.some.injEq]
      omega
    · congr 1
      omega

/-- Claim C7 counterexample: a unary run of exactly 16 zero bits (the bytes
`[0x00, 0x00, 0x80, 0x00, 0x00]`: sixteen zeros, a 1 bit, then a 16-bit
zero suffix) makes `readExpGolomb` return 0; the claimed behavior — return
0 only when the count exceeds 16 — would decode it to
`0 + 2 ^ 16 - 1 = 65535`. -/
theorem c7_counterexample :
    ((BitReader.mk0 [0x00, 0x00, 0x80, 0x00, 0x00]).readExpGolomb).1 = 0 ∧
      ¬ ((BitReader.mk0 [0x00, 0x00, 0x80, 0x00, 0x00]).readExpGolomb).1 =
        65535 := by
  decide

/-- Claim C7 (amended): on a reachable state whose next bits form a
well-formed Exp-Golomb codeword — `k` zero bits, a 1 bit, then `k` suffix
bits, with `2 * k + 1` bits available — `readExpGolomb` returns
`suffix + 2 ^ k - 1` and consumes exactly `2 * k + 1` bits, provided
`k ≤ 15`; prefix counts of 16 or more (not only above 16) trip the sanity
bound and return 0 instead. -/
theorem c7_exp_golomb (r : BitReader) (hwf : r.Wf) (k : Nat) (hk : k ≤ 15)
    (hav : 2 * k + 1 ≤ r.available)
    (hz : ∀ t, t < k → bitAt r t = 0) (h1 : bitAt r k = 1) :
    r.readExpGolomb =
      ((bitsVal (advanceBits r (k + 1)) k : Int) + 2 ^ k - 1,
        advanceBits r (2 * k + 1)) := by
  unfold BitReader.readExpGolomb
  rw [egLoopGo_spec k r 0 (r.available + 1) hwf (by omega) hav hz h1,
    Nat.zero_add]
  show (if k > 15 then ((0 : Int), ((advanceBits r (k + 1)).read k).2)
    else (((advanceBits r (k + 1)).read k).1 + 2 ^ k - 1,
      ((advanceBits r (k + 1)).read k).2)) = _
  rw [if_neg (by omega : ¬ k > 15)]
  rw [read_spec (advanceBits r (k + 1)) (wf_advance r (k + 1) (by omega) hwf)
    k, available_advance r (k + 1) (by omega),
    show min k (r.available - (k + 1)) = k from by omega]
  have hlt : bitsVal (advanceBits r (k + 1)) k < 2 ^ 31 :=
    lt_of_lt_of_le (bitsVal_lt _ k)
      (Nat.pow_le_pow_right (by norm_num) (by omega))
  rw [Nat.mod_eq_of_lt (lt_trans hlt (by norm_num))]
  show (jsInt32 (bitsVal (advanceBits r (k + 1)) k) + 2 ^ k - 1,
    advanceBits (advanceBits r (k + 1)) k) = _
  rw [jsInt32, if_pos hlt, advanceBits_add, Prod.mk.injEq]
  exact ⟨rfl, by congr 1; omega⟩

/-- Witness for C7 at the shortest codeword: the stream `0xA6...` starts
with a 1 bit (`k = 0`), decoding to 0 while consuming one bit. -/
theorem c7_witness :
    (BitReader.mk0 [0xA6, 0x42, 0x80]).Wf ∧
      2 * 0 + 1 ≤ (BitReader.mk0 [0xA6, 0x42, 0x80]).available ∧
      bitAt (BitReader.mk0 [0xA6, 0x42, 0x80]) 0 = 1 ∧
      (BitReader.mk0 [0xA6, 0x42, 0x80]).readExpGolomb =
        ((bitsVal (advanceBits (BitReader.mk0 [0xA6, 0x42, 0x80]) (0 + 1))
            0 : Int) + 2 ^ 0 - 1,
          advanceBits (BitReader.mk0 [0xA6, 0x42, 0x80]) (2 * 0 + 1)) :=
  ⟨by decide, by decide, by decide,
    c7_exp_golomb (BitReader.mk0 [0xA6, 0x42, 0x80]) (by decide) 0
      (by decide) (by decide) (fun t ht => absurd ht (by omega))
      (by decide)⟩
